import Mathlib

set_option maxRecDepth 8000

/-!
Shallow embedding of the application-resolution core of the repository
(`src/app_registry.py`, class `AppRegistry`), together with proofs of the
specification's claims about it.

Python dictionaries are modelled as association lists in insertion order
(`d[k] = v` updates the value in place when the key is present, otherwise
appends), matching CPython's ordered-dict semantics.  The external world
(two registry hives, the filesystem, the `where` command, environment
variables) is a record of oracles `Env`.  A probe that can raise is an
`Except`/`Option`; in the App Paths enumeration a failing sub-key read is a
distinct list element because the Python loop catches `WindowsError` with a
`break`, ending the whole enumeration.  String operations used by the code
(`lower`, `title`, `split`, `endswith`, substring `in`, `os.path.splitext`,
`os.path.join`) are re-implemented over `List Char` so that all definitions
evaluate by kernel reduction.
-/

/-! ### Python string primitives -/

/-- Substring scan: `occursIn needle hay` is `needle in hay` on char lists. -/
def occursIn (needle : List Char) : List Char → Bool
  | [] => needle.isEmpty
  | c :: rest => needle.isPrefixOf (c :: rest) || occursIn needle rest

/-- Python `needle in hay` for strings. -/
def strContains (hay needle : String) : Bool := occursIn needle.data hay.data

/-- Python `str.lower()` (ASCII). -/
def pyLower (s : String) : String := ⟨s.data.map Char.toLower⟩

/-- Python `str.endswith(suf)`. -/
def pyEndsWith (s suf : String) : Bool := suf.data.isSuffixOf s.data

/-- Worker for `pyTitle`: the boolean tracks whether the previous character
was alphabetic. -/
def titleGo : Bool → List Char → List Char
  | _, [] => []
  | prevAlpha, c :: rest =>
    if c.isAlpha then (if prevAlpha then c.toLower else c.toUpper) :: titleGo true rest
    else c :: titleGo false rest

/-- Python `str.title()` (ASCII): a letter is uppercased when it does not
follow a letter, lowercased otherwise. -/
def pyTitle (s : String) : String := ⟨titleGo false s.data⟩

/-- Worker for `firstWord`: splits on whitespace runs, dropping empties,
like Python's no-argument `str.split()`. -/
def wordsGo : List Char → List Char → List (List Char)
  | acc, [] => if acc.isEmpty then [] else [acc.reverse]
  | acc, c :: rest =>
    if c.isWhitespace then
      if acc.isEmpty then wordsGo [] rest else acc.reverse :: wordsGo [] rest
    else wordsGo (c :: acc) rest

/-- Python `s.split()[0]`, as an `Option` (the `[0]` raises on no words). -/
def firstWord (s : String) : Option String :=
  (wordsGo [] s.data).head?.map (fun cs => ⟨cs⟩)

/-- Python `str.rfind`: index of the last occurrence, `-1` when absent. -/
def rfindGo (c : Char) : List Char → Nat → Int → Int
  | [], _, acc => acc
  | x :: rest, i, acc => rfindGo c rest (i + 1) (if x == c then Int.ofNat i else acc)

/-- Python `cs.rfind(c)` on a char list. -/
def pyRfind (cs : List Char) (c : Char) : Int := rfindGo c cs 0 (-1)

/-- Root part of `os.path.splitext(s)` on Windows paths: drops the final
`.ext` of the last path component unless that component's name consists
only of dots before the candidate dot. -/
def splitextRoot (s : String) : String :=
  let cs := s.data
  let sepIdx := max (pyRfind cs '\\') (pyRfind cs '/')
  let dotIdx := pyRfind cs '.'
  if dotIdx > sepIdx then
    let nameStart := (sepIdx + 1).toNat
    if (List.range (dotIdx.toNat - nameStart)).any
        (fun i => cs.getD (nameStart + i) '.' != '.') then
      ⟨cs.take dotIdx.toNat⟩
    else s
  else s

/-- Windows `os.path.join a b`, for a relative second component (the only
shape the code produces: a directory joined with a file or directory name). -/
def joinPath (a b : String) : String :=
  if a = "" then b
  else if pyEndsWith a "\\" || pyEndsWith a "/" || pyEndsWith a ":" then a ++ b
  else a ++ "\\" ++ b

/-- Worker for `pySplitSemis`. -/
def splitSemisGo : List Char → List Char → List String
  | acc, [] => [⟨acc.reverse⟩]
  | acc, c :: rest =>
    if c == ';' then (⟨acc.reverse⟩ : String) :: splitSemisGo [] rest
    else splitSemisGo (c :: acc) rest

/-- Python `s.split(os.pathsep)` with `os.pathsep = ";"`; `"" ↦ [""]`. -/
def pySplitSemis (s : String) : List String := splitSemisGo [] s.data

/-! ### Association lists: Python `dict` in insertion order -/

/-- A Python `dict[str, str]` as an insertion-ordered association list. -/
abbrev Alist := List (String × String)

/-- Python `d.get(k)` / `d[k]`: value at the first matching key. -/
def alistLookup (m : Alist) (k : String) : Option String :=
  (m.find? (fun kv => kv.1 == k)).map (·.2)

/-- Python `k in d`. -/
def alistMem (m : Alist) (k : String) : Bool := (alistLookup m k).isSome

/-- Python `d[k] = v`: update in place when present, append otherwise. -/
def alistSet : Alist → String → String → Alist
  | [], k, v => [(k, v)]
  | kv :: rest, k, v => if kv.1 = k then (k, v) :: rest else kv :: alistSet rest k v

/-! ### The external world -/

/-- One record of the Uninstall hive enumeration.  `fatal` models a
`WindowsError` from `EnumKey`/`OpenKey` (the loop breaks); `skip` models a
failing `QueryValueEx` for `DisplayName`/`InstallLocation` (the inner bare
`except` skips the record). -/
inductive UItem where
  | fatal
  | skip
  | entry (displayName installLocation : String)
deriving DecidableEq

/-- The oracles the code consults.  `appPathsHive` enumerates the App Paths
sub-keys: each element is the sub-key name together with its default value,
or an error when reading that sub-key raises `WindowsError` (which the
Python loop turns into a `break`).  A top-level `.error` models the hive
itself being unreadable. -/
structure Env where
  appPathsHive : Except Unit (List (Except Unit (String × String)))
  uninstallHive : Except Unit (List UItem)
  pathExists : String → Bool
  isDir : String → Bool
  listDir : String → Except Unit (List String)
  whereCmd : String → Option (List String)
  getEnvVar : String → Option String

/-- An environment in which every probe fails and no variable is set. -/
def emptyEnv : Env where
  appPathsHive := .error ()
  uninstallHive := .error ()
  pathExists := fun _ => false
  isDir := fun _ => false
  listDir := fun _ => .error ()
  whereCmd := fun _ => none
  getEnvVar := fun _ => none

/-! ### AppRegistry state and construction -/

/-- The two mutable dictionaries of `AppRegistry`. -/
structure RegState where
  app_registry : Alist
  window_patterns : Alist
deriving DecidableEq

/-- The `self.window_patterns` literal from `__init__`. -/
def init_window_patterns : Alist :=
  [("chrome", "Google Chrome"), ("firefox", "Mozilla Firefox"),
   ("edge", "Microsoft Edge"), ("word", "Word"), ("excel", "Excel"),
   ("powerpoint", "PowerPoint"), ("notepad", "Notepad"),
   ("calculator", "Calculator"), ("spotify", "Spotify"),
   ("explorer", "File Explorer"), ("paint", "Paint"),
   ("cmd", "Command Prompt"), ("powershell", "Windows PowerShell")]

/-- The `self.common_apps` literal from `__init__`. -/
def common_apps : List (String × List String) :=
  [("chrome", ["chrome.exe"]), ("firefox", ["firefox.exe"]),
   ("edge", ["msedge.exe"]), ("word", ["WINWORD.EXE", "winword.exe"]),
   ("excel", ["EXCEL.EXE", "excel.exe"]),
   ("powerpoint", ["POWERPNT.EXE", "powerpnt.exe"]),
   ("notepad", ["notepad.exe"]), ("calculator", ["calc.exe"]),
   ("spotify", ["Spotify.exe"]), ("explorer", ["explorer.exe"]),
   ("paint", ["mspaint.exe"]), ("cmd", ["cmd.exe"]),
   ("powershell", ["powershell.exe"])]

/-- State right after the two dictionary literals of `__init__`, before
`_discover_apps` runs. -/
def initState : RegState := ⟨[], init_window_patterns⟩

/-- Method `_get_search_paths`: candidate directories, filtered to non-empty paths
that exist; NOT de-duplicated (the list comprehension only filters). -/
def get_search_paths (env : Env) : List String :=
  let system_root := (env.getEnvVar "SystemRoot").getD "C:\\Windows"
  let program_files := (env.getEnvVar "ProgramFiles").getD "C:\\Program Files"
  let program_files_x86 := (env.getEnvVar "ProgramFiles(x86)").getD "C:\\Program Files (x86)"
  let user_profile := (env.getEnvVar "USERPROFILE").getD ""
  let paths :=
    [system_root,
     joinPath system_root "System32",
     joinPath system_root "SysWOW64",
     program_files,
     program_files_x86,
     joinPath (joinPath (joinPath program_files "Microsoft Office") "root") "Office16",
     joinPath (joinPath (joinPath program_files "Microsoft Office") "root") "Office15",
     joinPath program_files "Mozilla Firefox",
     joinPath (joinPath (joinPath program_files_x86 "Google") "Chrome") "Application",
     joinPath (joinPath (joinPath program_files_x86 "Microsoft") "Edge") "Application"] ++
    (if user_profile = "" then [] else
      [joinPath (joinPath (joinPath (joinPath user_profile "AppData") "Local") "Microsoft") "WindowsApps",
       joinPath (joinPath (joinPath user_profile "AppData") "Local") "Programs",
       joinPath (joinPath user_profile "AppData") "Roaming"]) ++
    pySplitSemis ((env.getEnvVar "PATH").getD "")
  paths.filter (fun p => p != "" && env.pathExists p)

/-- The sub-key loop of `_discover_from_app_paths`.  An `.error` element
reaches `except WindowsError: break`, so the remaining elements are never
enumerated. -/
def app_paths_loop (env : Env) : List (Except Unit (String × String)) → RegState → RegState
  | [], st => st
  | .error _ :: _, st => st
  | .ok (sub, path) :: rest, st =>
    let app_name := pyLower (splitextRoot sub)
    let st' :=
      if env.pathExists path then
        { app_registry := alistSet st.app_registry app_name path,
          window_patterns :=
            if alistMem st.window_patterns app_name then st.window_patterns
            else alistSet st.window_patterns app_name (pyTitle app_name) }
      else st
    app_paths_loop env rest st'

/-- Method `_discover_from_app_paths` (strategy 1). -/
def discover_from_app_paths (env : Env) (st : RegState) : RegState :=
  match env.appPathsHive with
  | .error _ => st
  | .ok items => app_paths_loop env items st

/-- Processing of one readable Uninstall record. -/
def uninstall_step (env : Env) (dn il : String) (st : RegState) : RegState :=
  match firstWord (pyLower dn) with
  | none => st
  | some app_name =>
    if il != "" && env.pathExists il then
      match env.listDir il with
      | .error _ => st
      | .ok files =>
        match files.find? (fun f => pyEndsWith (pyLower f) ".exe") with
        | none => st
        | some f =>
          if alistMem st.app_registry app_name then st
          else
            { app_registry := alistSet st.app_registry app_name (joinPath il f),
              window_patterns :=
                if alistMem st.window_patterns app_name then st.window_patterns
                else alistSet st.window_patterns app_name dn }
    else st

/-- The record loop of `_discover_from_uninstall_registry`; `fatal` breaks. -/
def uninstall_loop (env : Env) : List UItem → RegState → RegState
  | [], st => st
  | .fatal :: _, st => st
  | .skip :: rest, st => uninstall_loop env rest st
  | .entry dn il :: rest, st => uninstall_loop env rest (uninstall_step env dn il st)

/-- Method `_discover_from_uninstall_registry` (strategy 2). -/
def discover_from_uninstall (env : Env) (st : RegState) : RegState :=
  match env.uninstallHive with
  | .error _ => st
  | .ok items => uninstall_loop env items st

/-- Depth-1 sub-directory scan of `_discover_from_filesystem`; stops at the
first hit. -/
def fs_subdir_loop (env : Env) (search_path app_name exe_name : String) :
    List String → RegState → RegState
  | [], st => st
  | subdir :: rest, st =>
    let subdir_path := joinPath search_path subdir
    if env.isDir subdir_path then
      let exe_path := joinPath subdir_path exe_name
      if env.pathExists exe_path then
        { st with app_registry := alistSet st.app_registry app_name exe_path }
      else fs_subdir_loop env search_path app_name exe_name rest st
    else fs_subdir_loop env search_path app_name exe_name rest st

/-- Per-executable-name loop of `_discover_from_filesystem` inside one
search path: a direct hit stops the loop, a sub-directory hit does not. -/
def fs_exe_loop (env : Env) (search_path app_name : String) :
    List String → RegState → RegState
  | [], st => st
  | exe_name :: rest, st =>
    let exe_path := joinPath search_path exe_name
    if env.pathExists exe_path then
      { st with app_registry := alistSet st.app_registry app_name exe_path }
    else
      let st' :=
        match env.listDir search_path with
        | .error _ => st
        | .ok subdirs => fs_subdir_loop env search_path app_name exe_name subdirs st
      fs_exe_loop env search_path app_name rest st'

/-- Per-search-path loop of `_discover_from_filesystem`: breaks once the
application is registered. -/
def fs_path_loop (env : Env) (app_name : String) (exe_names : List String) :
    List String → RegState → RegState
  | [], st => st
  | sp :: rest, st =>
    let st' := fs_exe_loop env sp app_name exe_names st
    if alistMem st'.app_registry app_name then st'
    else fs_path_loop env app_name exe_names rest st'

/-- The per-application loop of `_discover_from_filesystem`. -/
def filesystem_loop (env : Env) (sps : List String) :
    List (String × List String) → RegState → RegState
  | [], st => st
  | (app_name, exe_names) :: rest, st =>
    if alistMem st.app_registry app_name then filesystem_loop env sps rest st
    else filesystem_loop env sps rest (fs_path_loop env app_name exe_names sps st)

/-- Method `_discover_from_filesystem` (strategy 3); `sps` is `self.search_paths`. -/
def discover_from_filesystem (env : Env) (sps : List String) (st : RegState) : RegState :=
  filesystem_loop env sps common_apps st

/-- Per-executable-name loop of `_discover_from_where_command`.  `whereCmd`
is `none` when `subprocess.run` raises or returns non-zero, and `some lines`
(the stripped stdout split on newlines) on success. -/
def where_exe_loop (env : Env) (app_name : String) : List String → RegState → RegState
  | [], st => st
  | exe_name :: rest, st =>
    match env.whereCmd exe_name with
    | none => where_exe_loop env app_name rest st
    | some paths =>
      match paths with
      | [] => where_exe_loop env app_name rest st
      | p :: _ => { st with app_registry := alistSet st.app_registry app_name p }

/-- The per-application loop of `_discover_from_where_command`. -/
def where_loop (env : Env) : List (String × List String) → RegState → RegState
  | [], st => st
  | (app_name, exe_names) :: rest, st =>
    if alistMem st.app_registry app_name then where_loop env rest st
    else where_loop env rest (where_exe_loop env app_name exe_names st)

/-- Method `_discover_from_where_command` (strategy 4). -/
def discover_from_where (env : Env) (st : RegState) : RegState :=
  where_loop env common_apps st

/-- Method `_discover_apps`: the four strategies in priority order. -/
def discover_apps (env : Env) (st : RegState) : RegState :=
  let st1 := discover_from_app_paths env st
  let st2 := discover_from_uninstall env st1
  let st3 := discover_from_filesystem env (get_search_paths env) st2
  discover_from_where env st3

/-- The state of `AppRegistry()` constructed in environment `env`. -/
def mkAppRegistry (env : Env) : RegState := discover_apps env initState

/-! ### Queries and mutation -/

/-- Method `_find_app_on_demand`.  The third component records that the external
`where` probe was invoked. -/
def find_app_on_demand (env : Env) (st : RegState) (app_name : String) :
    Option String × RegState × Bool :=
  match env.whereCmd (app_name ++ ".exe") with
  | none => (none, st, true)
  | some paths =>
    match paths with
    | [] => (none, st, true)
    | p :: _ =>
      (some p, { st with app_registry := alistSet st.app_registry app_name p }, true)

/-- Method `get_app_path`: exact match, then first partial match in iteration
order, then the on-demand probe.  Returns the result, the state after the
call, and whether the external probe ran. -/
def get_app_path (env : Env) (st : RegState) (name : String) :
    Option String × RegState × Bool :=
  let app_name := pyLower name
  match alistLookup st.app_registry app_name with
  | some path => (some path, st, false)
  | none =>
    match st.app_registry.find?
        (fun kv => strContains kv.1 app_name || strContains app_name kv.1) with
    | some kv => (some kv.2, st, false)
    | none => find_app_on_demand env st app_name

/-- Method `get_window_pattern`: exact, then partial, then title-cased fallback
(the Python function's `Optional[str]` never actually returns `None`). -/
def get_window_pattern (st : RegState) (name : String) : String :=
  let app_name := pyLower name
  match alistLookup st.window_patterns app_name with
  | some p => p
  | none =>
    match st.window_patterns.find?
        (fun kv => strContains kv.1 app_name || strContains app_name kv.1) with
    | some kv => kv.2
    | none => pyTitle app_name

/-- Method `add_app`: unconditional upsert; the window pattern falls back to the
title-cased name when the argument is `None` or empty (Python truthiness). -/
def add_app (st : RegState) (name path : String) (window_pattern : Option String) : RegState :=
  let n := pyLower name
  { app_registry := alistSet st.app_registry n path,
    window_patterns :=
      match window_pattern with
      | some wp =>
        if wp == "" then alistSet st.window_patterns n (pyTitle n)
        else alistSet st.window_patterns n wp
      | none => alistSet st.window_patterns n (pyTitle n) }

/-! ### Operation sequences over the shared registry -/

/-- One public operation on the shared registry. -/
inductive Op where
  | discover (env : Env)
  | lookupApp (env : Env) (name : String)
  | addApp (name path : String) (window_pattern : Option String)

/-- Apply one operation (keeping only the state for `lookupApp`). -/
def applyOp (st : RegState) : Op → RegState
  | .discover env => discover_apps env st
  | .lookupApp env name => (get_app_path env st name).2.1
  | .addApp name path wp => add_app st name path wp

/-- Apply a sequence of operations. -/
def applyOps (st : RegState) (ops : List Op) : RegState := ops.foldl applyOp st

/-! ### Basic lemmas about the dict model -/

theorem alistLookup_cons (kv : String × String) (rest : Alist) (k : String) :
    alistLookup (kv :: rest) k = if kv.1 = k then some kv.2 else alistLookup rest k := by
  by_cases h : kv.1 = k
  · simp [alistLookup, List.find?_cons_of_pos, h]
  · simp [alistLookup, List.find?_cons_of_neg, h]

theorem alistLookup_set_self (m : Alist) (k v : String) :
    alistLookup (alistSet m k v) k = some v := by
  induction m with
  | nil => simp [alistSet, alistLookup]
  | cons kv rest ih =>
    by_cases h : kv.1 = k
    · simp [alistSet, h, alistLookup_cons]
    · simp [alistSet, h, alistLookup_cons, ih]

theorem alistLookup_set_ne (m : Alist) (k v k' : String) (h : k' ≠ k) :
    alistLookup (alistSet m k v) k' = alistLookup m k' := by
  induction m with
  | nil => simp [alistSet, alistLookup_cons, alistLookup, Ne.symm h]
  | cons kv rest ih =>
    by_cases hk : kv.1 = k
    · simp [alistSet, hk, alistLookup_cons, Ne.symm h]
    · simp [alistSet, hk, alistLookup_cons, ih]

theorem alistLookup_set (m : Alist) (k v k' : String) :
    alistLookup (alistSet m k v) k' = if k' = k then some v else alistLookup m k' := by
  by_cases h : k' = k
  · simp [h, alistLookup_set_self]
  · simp [h, alistLookup_set_ne m k v k' h]

theorem alistMem_set_mono (m : Alist) (k v k' : String) (h : alistMem m k' = true) :
    alistMem (alistSet m k v) k' = true := by
  unfold alistMem at *
  rw [alistLookup_set]
  by_cases hk : k' = k <;> simp [hk, h]

theorem alistSet_ne_nil (m : Alist) (k v : String) : alistSet m k v ≠ [] := by
  cases m with
  | nil => simp [alistSet]
  | cons kv rest =>
    by_cases h : kv.1 = k <;> simp [alistSet, h]

theorem alistSet_eq_self (m : Alist) (k v : String) (h : alistLookup m k = some v) :
    alistSet m k v = m := by
  induction m with
  | nil => simp [alistLookup] at h
  | cons kv rest ih =>
    obtain ⟨k1, v1⟩ := kv
    rw [alistLookup_cons] at h
    by_cases hk : k1 = k
    · simp only [hk, if_pos rfl] at h
      injection h with h
      simp [alistSet, hk, h]
    · simp only at hk
      rw [if_neg hk] at h
      simp [alistSet, hk, ih h]

theorem alistLookup_isSome_of_mem (m : Alist) (kv : String × String) (h : kv ∈ m) :
    (alistLookup m kv.1).isSome = true := by
  induction m with
  | nil => simp at h
  | cons a rest ih =>
    rcases List.mem_cons.mp h with h | h
    · subst h; simp [alistLookup_cons]
    · rw [alistLookup_cons]
      by_cases ha : a.1 = kv.1 <;> simp [ha, ih h]

theorem alistSet_forall {P : String × String → Prop} (m : Alist) (k v : String)
    (h : ∀ kv ∈ m, P kv) (hkv : P (k, v)) : ∀ kv ∈ alistSet m k v, P kv := by
  induction m with
  | nil => simpa [alistSet] using hkv
  | cons a rest ih =>
    intro kv hmem
    by_cases ha : a.1 = k
    · simp only [alistSet, if_pos ha] at hmem
      rcases List.mem_cons.mp hmem with h' | h'
      · subst h'; exact hkv
      · exact h kv (List.mem_cons_of_mem a h')
    · simp only [alistSet, if_neg ha] at hmem
      rcases List.mem_cons.mp hmem with h' | h'
      · rw [h']; exact h a (List.mem_cons_self a rest)
      · exact ih (fun x hx => h x (List.mem_cons_of_mem a hx)) kv h'

theorem strContains_empty_needle (hay : String) : strContains hay "" = true := by
  show occursIn [] hay.data = true
  induction hay.data with
  | nil => rfl
  | cons c rest _ => rfl

/-! ### C1: partial matching in `get_app_path` -/

/-- C1: when the lowercased query has no exact key match, `get_app_path`
returns the path of the first key (in registry iteration order) that
contains the query or is contained in it; in particular, with a registry
holding the key "powershell", lookups of "shell" and "powershell v2" both
succeed, and "xyz" produces no partial-match entry (and then falls through
to the failing on-demand probe). -/
theorem c1_partial_match_first_key (env : Env) (st : RegState) (q k v : String)
    (pre post : List (String × String))
    (hsplit : st.app_registry = pre ++ (k, v) :: post)
    (hexact : alistLookup st.app_registry (pyLower q) = none)
    (hpre : ∀ kv ∈ pre,
      (strContains kv.1 (pyLower q) || strContains (pyLower q) kv.1) = false)
    (hk : (strContains k (pyLower q) || strContains (pyLower q) k) = true) :
    (get_app_path env st q).1 = some v ∧
    (get_app_path emptyEnv ⟨[("powershell", "C:\\ps.exe")], []⟩ "shell").1 = some "C:\\ps.exe" ∧
    (get_app_path emptyEnv ⟨[("powershell", "C:\\ps.exe")], []⟩ "powershell v2").1 = some "C:\\ps.exe" ∧
    List.find? (fun kv => strContains kv.1 (pyLower "xyz") || strContains (pyLower "xyz") kv.1)
      [("powershell", "C:\\ps.exe")] = none ∧
    (get_app_path emptyEnv ⟨[("powershell", "C:\\ps.exe")], []⟩ "xyz").1 = none := by
  refine ⟨?_, by decide, by decide, by decide, by decide⟩
  have hfind : st.app_registry.find?
      (fun kv => strContains kv.1 (pyLower q) || strContains (pyLower q) kv.1)
      = some (k, v) := by
    have h1 : pre.find?
        (fun kv => strContains kv.1 (pyLower q) || strContains (pyLower q) kv.1) = none :=
      List.find?_eq_none.mpr (fun x hx => by simp [hpre x hx])
    have hk' : (fun kv : String × String =>
        strContains kv.1 (pyLower q) || strContains (pyLower q) kv.1) (k, v) = true := hk
    rw [hsplit, List.find?_append, h1,
      List.find?_cons_of_pos (p := fun kv : String × String =>
        strContains kv.1 (pyLower q) || strContains (pyLower q) kv.1) post hk']
    rfl
  simp only [get_app_path, hexact, hfind]

/-- Witness for C1 at a concrete registry and query. -/
theorem c1_witness :
    ((⟨[("aaa", "PA"), ("powershell", "P")], []⟩ : RegState).app_registry
        = [("aaa", "PA")] ++ ("powershell", "P") :: []) ∧
    alistLookup (⟨[("aaa", "PA"), ("powershell", "P")], []⟩ : RegState).app_registry
        (pyLower "shell") = none ∧
    (∀ kv ∈ [("aaa", "PA")],
      (strContains kv.1 (pyLower "shell") || strContains (pyLower "shell") kv.1) = false) ∧
    (strContains "powershell" (pyLower "shell")
      || strContains (pyLower "shell") "powershell") = true ∧
    (get_app_path emptyEnv ⟨[("aaa", "PA"), ("powershell", "P")], []⟩ "shell").1 = some "P" := by
  refine ⟨rfl, by decide, by decide, by decide, ?_⟩
  exact (c1_partial_match_first_key emptyEnv ⟨[("aaa", "PA"), ("powershell", "P")], []⟩
    "shell" "powershell" "P" [("aaa", "PA")] [] rfl (by decide) (by decide) (by decide)).1

/-! ### C2: successful on-demand resolution caches its result -/

/-- C2: for a name with no exact and no partial match whose external probe
succeeds with first output line `p`, `get_app_path` returns `p` after
invoking the probe, the registry afterwards maps the lowercased name to
`p`, and a subsequent lookup of the same name returns `p` from the exact
match, leaving the registry unchanged and not invoking the probe. -/
theorem c2_on_demand_caches (env : Env) (st : RegState) (q p : String) (rest : List String)
    (hexact : alistLookup st.app_registry (pyLower q) = none)
    (hpart : ∀ kv ∈ st.app_registry,
      (strContains kv.1 (pyLower q) || strContains (pyLower q) kv.1) = false)
    (hprobe : env.whereCmd (pyLower q ++ ".exe") = some (p :: rest)) :
    (get_app_path env st q).1 = some p ∧
    (get_app_path env st q).2.2 = true ∧
    alistLookup ((get_app_path env st q).2.1).app_registry (pyLower q) = some p ∧
    get_app_path env ((get_app_path env st q).2.1) q =
      (some p, (get_app_path env st q).2.1, false) := by
  have hfind : st.app_registry.find?
      (fun kv => strContains kv.1 (pyLower q) || strContains (pyLower q) kv.1) = none :=
    List.find?_eq_none.mpr (fun x hx => by simp [hpart x hx])
  have hmain : get_app_path env st q =
      (some p, ⟨alistSet st.app_registry (pyLower q) p, st.window_patterns⟩, true) := by
    simp only [get_app_path, hexact, hfind, find_app_on_demand, hprobe]
  rw [hmain]
  refine ⟨rfl, rfl, alistLookup_set_self _ _ _, ?_⟩
  simp only [get_app_path, alistLookup_set_self]

/-- Environment for the C2 witness: only `where customtool.exe` succeeds. -/
def envC2 : Env :=
  { emptyEnv with
    whereCmd := fun e => if e = "customtool.exe" then some ["C:\\ct.exe"] else none }

/-- Witness for C2 on an empty registry and the name "customtool". -/
theorem c2_witness :
    (alistLookup (⟨[], []⟩ : RegState).app_registry (pyLower "customtool") = none) ∧
    envC2.whereCmd (pyLower "customtool" ++ ".exe") = some ("C:\\ct.exe" :: []) ∧
    ((get_app_path envC2 ⟨[], []⟩ "customtool").1 = some "C:\\ct.exe" ∧
     (get_app_path envC2 ⟨[], []⟩ "customtool").2.2 = true ∧
     alistLookup ((get_app_path envC2 ⟨[], []⟩ "customtool").2.1).app_registry
        (pyLower "customtool") = some "C:\\ct.exe" ∧
     get_app_path envC2 ((get_app_path envC2 ⟨[], []⟩ "customtool").2.1) "customtool" =
       (some "C:\\ct.exe", (get_app_path envC2 ⟨[], []⟩ "customtool").2.1, false)) :=
  ⟨rfl, by decide,
    c2_on_demand_caches envC2 ⟨[], []⟩ "customtool" "C:\\ct.exe" [] rfl (by decide) (by decide)⟩

/-! ### C7: failed on-demand resolution mutates nothing -/

/-- C7: for a name with no exact match, no partial match, and a failing
external probe, `get_app_path` returns the explicit not-found value and the
state is exactly unchanged (the probe having been invoked once). -/
theorem c7_failed_on_demand_no_mutation (env : Env) (st : RegState) (q : String)
    (hexact : alistLookup st.app_registry (pyLower q) = none)
    (hpart : ∀ kv ∈ st.app_registry,
      (strContains kv.1 (pyLower q) || strContains (pyLower q) kv.1) = false)
    (hprobe : env.whereCmd (pyLower q ++ ".exe") = none) :
    get_app_path env st q = (none, st, true) := by
  have hfind : st.app_registry.find?
      (fun kv => strContains kv.1 (pyLower q) || strContains (pyLower q) kv.1) = none :=
    List.find?_eq_none.mpr (fun x hx => by simp [hpart x hx])
  simp only [get_app_path, hexact, hfind, find_app_on_demand, hprobe]

/-- Witness for C7 on an empty registry and the name "obscureapp". -/
theorem c7_witness :
    (alistLookup (⟨[], []⟩ : RegState).app_registry (pyLower "obscureapp") = none) ∧
    emptyEnv.whereCmd (pyLower "obscureapp" ++ ".exe") = none ∧
    get_app_path emptyEnv ⟨[], []⟩ "obscureapp" = (none, ⟨[], []⟩, true) :=
  ⟨rfl, rfl,
    c7_failed_on_demand_no_mutation emptyEnv ⟨[], []⟩ "obscureapp" rfl (by decide) rfl⟩

/-! ### C10: the empty query never reports not-found on a non-empty registry -/

/-- C10: on a registry with at least one entry, looking up the empty string
never reaches the on-demand probe: the empty string is a substring of every
key, so (absent an exact match for the key `""`) the partial-match stage
returns the path of the first entry in iteration order. -/
theorem c10_empty_query_matches_first (env : Env) (st : RegState) (kv : String × String)
    (hhead : st.app_registry.head? = some kv) :
    ((get_app_path env st "").1).isSome = true ∧
    (alistLookup st.app_registry "" = none →
      get_app_path env st "" = (some kv.2, st, false)) := by
  cases hreg : st.app_registry with
  | nil => rw [hreg] at hhead; simp at hhead
  | cons a l =>
    rw [hreg] at hhead
    simp only [List.head?_cons, Option.some.injEq] at hhead
    subst hhead
    cases hex : alistLookup st.app_registry (pyLower "") with
    | some v =>
      constructor
      · simp only [get_app_path, hex]; rfl
      · intro hnone
        rw [hreg] at hex
        have hx : alistLookup (a :: l) "" = some v := hex
        rw [hnone] at hx
        cases hx
    | none =>
      have hfind : st.app_registry.find?
          (fun kv => strContains kv.1 (pyLower "") || strContains (pyLower "") kv.1)
          = some a := by
        rw [hreg]
        apply List.find?_cons_of_pos
        show (strContains a.1 "" || strContains "" a.1) = true
        rw [strContains_empty_needle]
        rfl
      constructor
      · simp only [get_app_path, hex, hfind]; rfl
      · intro _
        simp only [get_app_path, hex, hfind]

/-- Witness for C10 on a one-entry registry. -/
theorem c10_witness :
    ((⟨[("powershell", "P")], []⟩ : RegState).app_registry.head?
        = some ("powershell", "P")) ∧
    (((get_app_path emptyEnv ⟨[("powershell", "P")], []⟩ "").1).isSome = true ∧
     (alistLookup (⟨[("powershell", "P")], []⟩ : RegState).app_registry "" = none →
       get_app_path emptyEnv ⟨[("powershell", "P")], []⟩ ""
         = (some "P", ⟨[("powershell", "P")], []⟩, false))) :=
  ⟨rfl, c10_empty_query_matches_first emptyEnv ⟨[("powershell", "P")], []⟩ ("powershell", "P") rfl⟩

/-! ### C5: search paths are filtered but NOT de-duplicated -/

/-- Environment for the C5 counterexample: `SystemRoot` and `PATH` both
name the single existing directory `"W"`. -/
def envC5 : Env :=
  { emptyEnv with
    pathExists := fun p => p == "W"
    getEnvVar := fun v =>
      if v = "SystemRoot" then some "W" else if v = "PATH" then some "W" else none }

/-- Counterexample for C5: a directory reachable both as the system root
and through the PATH variable appears twice in `get_search_paths`, so the
returned sequence is not de-duplicated. -/
theorem c5_counterexample_duplicate_paths :
    get_search_paths envC5 = ["W", "W"] ∧ ¬ (get_search_paths envC5).Nodup :=
  ⟨by decide, by decide⟩

/-- C5 (amended): every path returned by `get_search_paths` is non-empty
and exists at call time — nonexistent candidates are silently dropped, but
the sequence is not de-duplicated. -/
theorem c5_search_paths_exist (env : Env) (p : String) (hp : p ∈ get_search_paths env) :
    env.pathExists p = true ∧ p ≠ "" := by
  simp only [get_search_paths, List.mem_filter] at hp
  obtain ⟨-, h⟩ := hp
  rw [Bool.and_eq_true] at h
  exact ⟨h.2, by simpa using h.1⟩

/-- Witness for the amended C5. -/
theorem c5_witness :
    "W" ∈ get_search_paths envC5 ∧ (envC5.pathExists "W" = true ∧ "W" ≠ "") :=
  ⟨by decide, c5_search_paths_exist envC5 "W" (by decide)⟩

/-! ### C6: a failing sub-key read aborts the App Paths enumeration -/

/-- Environment exhibiting the C6 bug: the first App Paths sub-key read
raises `WindowsError`, the second is a valid entry for notepad. -/
def envC6bug : Env :=
  { emptyEnv with
    appPathsHive := .ok [.error (), .ok ("notepad.exe", "C:\\Windows\\notepad.exe")]
    pathExists := fun p => p == "C:\\Windows\\notepad.exe" }

/-- The same environment with the failing sub-key removed. -/
def envC6ok : Env :=
  { emptyEnv with
    appPathsHive := .ok [.ok ("notepad.exe", "C:\\Windows\\notepad.exe")]
    pathExists := fun p => p == "C:\\Windows\\notepad.exe" }

/-- C6 (failing input): one failing sub-key read reaches
`except WindowsError: break` in `_discover_from_app_paths`, so the valid
notepad sub-key enumerated after it is never inserted, although the same
environment without the failing sub-key does insert it. -/
theorem c6_app_paths_break_bug :
    alistLookup ((mkAppRegistry envC6bug).app_registry) "notepad" = none ∧
    alistLookup ((mkAppRegistry envC6ok).app_registry) "notepad"
      = some "C:\\Windows\\notepad.exe" :=
  ⟨by decide, by decide⟩

/-! ### Preservation lemmas: later strategies never overwrite -/

theorem alistMem_of_lookup (m : Alist) (k v : String) (h : alistLookup m k = some v) :
    alistMem m k = true := by
  simp [alistMem, h]

theorem app_paths_loop_mem_mono (env : Env) (items : List (Except Unit (String × String)))
    (st : RegState) (k : String) (h : alistMem st.app_registry k = true) :
    alistMem ((app_paths_loop env items st).app_registry) k = true := by
  induction items generalizing st with
  | nil => exact h
  | cons it rest ih =>
    match it with
    | .error _ => exact h
    | .ok (sub, path) =>
      simp only [app_paths_loop]
      by_cases hp : env.pathExists path = true
      · simp only [hp, if_true]
        exact ih _ (alistMem_set_mono _ _ _ _ h)
      · simp only [hp, if_false]
        exact ih _ h

theorem discover_from_app_paths_mem_mono (env : Env) (st : RegState) (k : String)
    (h : alistMem st.app_registry k = true) :
    alistMem ((discover_from_app_paths env st).app_registry) k = true := by
  unfold discover_from_app_paths
  cases env.appPathsHive with
  | error _ => exact h
  | ok items => exact app_paths_loop_mem_mono env items st k h

theorem uninstall_step_lookup_pres (env : Env) (dn il : String) (st : RegState)
    (k v : String) (h : alistLookup st.app_registry k = some v) :
    alistLookup ((uninstall_step env dn il st).app_registry) k = some v := by
  unfold uninstall_step
  split
  · exact h
  rename_i a hfw
  split
  · split
    · exact h
    · split
      · exact h
      · split
        · exact h
        · rename_i hm
          have hka : k ≠ a := fun he => hm (he ▸ alistMem_of_lookup _ _ _ h)
          rename_i files hfl f hff
          show alistLookup (alistSet st.app_registry a _) k = some v
          rw [alistLookup_set_ne _ _ _ _ hka]
          exact h
  · exact h

theorem uninstall_loop_lookup_pres (env : Env) (items : List UItem) (st : RegState)
    (k v : String) (h : alistLookup st.app_registry k = some v) :
    alistLookup ((uninstall_loop env items st).app_registry) k = some v := by
  induction items generalizing st with
  | nil => exact h
  | cons it rest ih =>
    match it with
    | .fatal => exact h
    | .skip => exact ih _ h
    | .entry dn il => exact ih _ (uninstall_step_lookup_pres env dn il st k v h)

theorem discover_from_uninstall_lookup_pres (env : Env) (st : RegState)
    (k v : String) (h : alistLookup st.app_registry k = some v) :
    alistLookup ((discover_from_uninstall env st).app_registry) k = some v := by
  unfold discover_from_uninstall
  cases env.uninstallHive with
  | error _ => exact h
  | ok items => exact uninstall_loop_lookup_pres env items st k v h

theorem fs_subdir_loop_lookup_ne (env : Env) (sp an en : String) (subs : List String)
    (st : RegState) (k : String) (hk : k ≠ an) :
    alistLookup ((fs_subdir_loop env sp an en subs st).app_registry) k
      = alistLookup st.app_registry k := by
  induction subs generalizing st with
  | nil => rfl
  | cons d rest ih =>
    simp only [fs_subdir_loop]
    by_cases h1 : env.isDir (joinPath sp d) = true
    · by_cases h2 : env.pathExists (joinPath (joinPath sp d) en) = true
      · simp only [h1, h2, if_true]
        exact alistLookup_set_ne _ _ _ _ hk
      · simp only [h1, h2, if_true, if_false]
        exact ih _
    · simp only [h1, if_false]
      exact ih _

theorem fs_exe_loop_lookup_ne (env : Env) (sp an : String) (exes : List String)
    (st : RegState) (k : String) (hk : k ≠ an) :
    alistLookup ((fs_exe_loop env sp an exes st).app_registry) k
      = alistLookup st.app_registry k := by
  induction exes generalizing st with
  | nil => rfl
  | cons e rest ih =>
    simp only [fs_exe_loop]
    by_cases h1 : env.pathExists (joinPath sp e) = true
    · rw [if_pos h1]
      exact alistLookup_set_ne _ _ _ _ hk
    · rw [if_neg h1, ih]
      cases env.listDir sp with
      | error u => rfl
      | ok subs => exact fs_subdir_loop_lookup_ne env sp an e subs st k hk

theorem fs_path_loop_lookup_ne (env : Env) (an : String) (exes : List String)
    (sps : List String) (st : RegState) (k : String) (hk : k ≠ an) :
    alistLookup ((fs_path_loop env an exes sps st).app_registry) k
      = alistLookup st.app_registry k := by
  induction sps generalizing st with
  | nil => rfl
  | cons sp rest ih =>
    simp only [fs_path_loop]
    by_cases hm : alistMem ((fs_exe_loop env sp an exes st).app_registry) an = true
    · rw [if_pos hm]
      exact fs_exe_loop_lookup_ne env sp an exes st k hk
    · rw [if_neg hm, ih]
      exact fs_exe_loop_lookup_ne env sp an exes st k hk

theorem filesystem_loop_lookup_pres (env : Env) (sps : List String)
    (apps : List (String × List String)) (st : RegState) (k v : String)
    (h : alistLookup st.app_registry k = some v) :
    alistLookup ((filesystem_loop env sps apps st).app_registry) k = some v := by
  induction apps generalizing st with
  | nil => exact h
  | cons pr rest ih =>
    obtain ⟨an, exes⟩ := pr
    simp only [filesystem_loop]
    by_cases hm : alistMem st.app_registry an = true
    · rw [if_pos hm]
      exact ih _ h
    · rw [if_neg hm]
      apply ih
      by_cases hk : k = an
      · exact absurd (hk ▸ alistMem_of_lookup _ _ _ h) hm
      · rw [fs_path_loop_lookup_ne env an exes sps st k hk]
        exact h

theorem discover_from_filesystem_lookup_pres (env : Env) (sps : List String)
    (st : RegState) (k v : String) (h : alistLookup st.app_registry k = some v) :
    alistLookup ((discover_from_filesystem env sps st).app_registry) k = some v :=
  filesystem_loop_lookup_pres env sps common_apps st k v h

theorem where_exe_loop_lookup_ne (env : Env) (an : String) (exes : List String)
    (st : RegState) (k : String) (hk : k ≠ an) :
    alistLookup ((where_exe_loop env an exes st).app_registry) k
      = alistLookup st.app_registry k := by
  induction exes generalizing st with
  | nil => rfl
  | cons e rest ih =>
    simp only [where_exe_loop]
    cases env.whereCmd e with
    | none => exact ih _
    | some paths =>
      cases paths with
      | nil => exact ih _
      | cons p ps => exact alistLookup_set_ne _ _ _ _ hk

theorem where_loop_lookup_pres (env : Env) (apps : List (String × List String))
    (st : RegState) (k v : String) (h : alistLookup st.app_registry k = some v) :
    alistLookup ((where_loop env apps st).app_registry) k = some v := by
  induction apps generalizing st with
  | nil => exact h
  | cons pr rest ih =>
    obtain ⟨an, exes⟩ := pr
    simp only [where_loop]
    by_cases hm : alistMem st.app_registry an = true
    · rw [if_pos hm]
      exact ih _ h
    · rw [if_neg hm]
      apply ih
      by_cases hk : k = an
      · exact absurd (hk ▸ alistMem_of_lookup _ _ _ h) hm
      · rw [where_exe_loop_lookup_ne env an exes st k hk]
        exact h

theorem discover_from_where_lookup_pres (env : Env) (st : RegState) (k v : String)
    (h : alistLookup st.app_registry k = some v) :
    alistLookup ((discover_from_where env st).app_registry) k = some v :=
  where_loop_lookup_pres env common_apps st k v h

/-! ### C3: a higher-priority strategy's entry is never overwritten -/

/-- C3: if strategy 1 (App Paths) produces an entry for key `k` and
strategy 3 (filesystem probing, run on the same initial state) would
produce a different path for `k`, the registry after the full discovery
still maps `k` to strategy 1's path: strategies 2–4 insert only for absent
keys, so an earlier strategy's result is never overwritten. -/
theorem c3_priority_strategy1_wins (env : Env) (k v w : String)
    (h1 : alistLookup ((discover_from_app_paths env initState).app_registry) k = some v)
    (h3 : alistLookup
      ((discover_from_filesystem env (get_search_paths env) initState).app_registry) k
      = some w)
    (hvw : v ≠ w) :
    alistLookup ((mkAppRegistry env).app_registry) k = some v := by
  unfold mkAppRegistry discover_apps
  exact discover_from_where_lookup_pres env _ k v
    (discover_from_filesystem_lookup_pres env _ _ k v
      (discover_from_uninstall_lookup_pres env _ k v h1))

/-- Environment for the C3 witness: strategy 1 maps chrome to "A", while
the filesystem probe would map it to "R\chrome.exe". -/
def envC3 : Env :=
  { emptyEnv with
    appPathsHive := .ok [.ok ("chrome.exe", "A")]
    pathExists := fun p => p == "A" || p == "R" || p == "R\\chrome.exe"
    getEnvVar := fun vr => if vr = "SystemRoot" then some "R" else none }

/-- Witness for C3: both strategies produce conflicting entries for
"chrome" and strategy 1 wins. -/
theorem c3_witness :
    alistLookup ((discover_from_app_paths envC3 initState).app_registry) "chrome"
      = some "A" ∧
    alistLookup
      ((discover_from_filesystem envC3 (get_search_paths envC3) initState).app_registry)
      "chrome" = some "R\\chrome.exe" ∧
    ("A" : String) ≠ "R\\chrome.exe" ∧
    alistLookup ((mkAppRegistry envC3).app_registry) "chrome" = some "A" :=
  ⟨by decide, by decide, by decide,
    c3_priority_strategy1_wins envC3 "chrome" "A" "R\\chrome.exe"
      (by decide) (by decide) (by decide)⟩

/-! ### C8: the registry only grows -/

theorem get_app_path_mem_mono (env : Env) (st : RegState) (name k : String)
    (h : alistMem st.app_registry k = true) :
    alistMem (((get_app_path env st name).2.1).app_registry) k = true := by
  simp only [get_app_path]
  split
  · exact h
  · split
    · exact h
    · simp only [find_app_on_demand]
      split
      · exact h
      · split
        · exact h
        · exact alistMem_set_mono _ _ _ _ h

theorem alistMem_iff_lookup (m : Alist) (k : String) :
    alistMem m k = true ↔ ∃ v, alistLookup m k = some v := by
  unfold alistMem
  cases alistLookup m k <;> simp

theorem discover_apps_mem_mono (env : Env) (st : RegState) (k : String)
    (h : alistMem st.app_registry k = true) :
    alistMem ((discover_apps env st).app_registry) k = true := by
  have h1 := discover_from_app_paths_mem_mono env st k h
  obtain ⟨v, hv⟩ := (alistMem_iff_lookup _ _).mp h1
  exact alistMem_of_lookup _ k v
    (discover_from_where_lookup_pres env _ k v
      (discover_from_filesystem_lookup_pres env _ _ k v
        (discover_from_uninstall_lookup_pres env _ k v hv)))

/-- C8: across every sequence of public operations (discovery, lookups with
their on-demand insertions, and `add_app` upserts) every key present
beforehand is still present afterwards — the registry's key set only
grows, and no entry is ever deleted. -/
theorem c8_registry_only_grows (ops : List Op) (st : RegState) (k : String)
    (h : alistMem st.app_registry k = true) :
    alistMem ((applyOps st ops).app_registry) k = true := by
  induction ops generalizing st with
  | nil => exact h
  | cons op rest ih =>
    show alistMem ((applyOps (applyOp st op) rest).app_registry) k = true
    apply ih
    cases op with
    | discover env => exact discover_apps_mem_mono env st k h
    | lookupApp env name => exact get_app_path_mem_mono env st name k h
    | addApp n p wp => exact alistMem_set_mono _ _ _ _ h

/-- Witness for C8: a key present before an upsert of another key and a
discovery pass in the empty environment is still present afterwards. -/
theorem c8_witness :
    alistMem (⟨[("chrome", "C")], []⟩ : RegState).app_registry "chrome" = true ∧
    alistMem
      ((applyOps ⟨[("chrome", "C")], []⟩
        [Op.addApp "paint" "P" none, Op.discover emptyEnv,
         Op.lookupApp emptyEnv "zzz"]).app_registry) "chrome" = true :=
  ⟨by decide,
    c8_registry_only_grows
      [Op.addApp "paint" "P" none, Op.discover emptyEnv, Op.lookupApp emptyEnv "zzz"]
      ⟨[("chrome", "C")], []⟩ "chrome" (by decide)⟩

/-! ### C4 infrastructure: key lists, uniqueness, extensionality -/

def keysOf (m : Alist) : List String := m.map Prod.fst

theorem mem_keysOf_lookup (m : Alist) (k : String) (h : k ∈ keysOf m) :
    ∃ v, alistLookup m k = some v := by
  induction m with
  | nil => simp [keysOf] at h
  | cons kv rest ih =>
    rw [alistLookup_cons]
    by_cases hk : kv.1 = k
    · exact ⟨kv.2, by rw [if_pos hk]⟩
    · rw [if_neg hk]
      apply ih
      simp only [keysOf, List.map_cons, List.mem_cons] at h
      rcases h with h | h
      · exact absurd h.symm hk
      · exact h

theorem lookup_mem_keysOf (m : Alist) (k v : String) (h : alistLookup m k = some v) :
    k ∈ keysOf m := by
  induction m with
  | nil => simp [alistLookup] at h
  | cons kv rest ih =>
    rw [alistLookup_cons] at h
    simp only [keysOf, List.map_cons, List.mem_cons]
    by_cases hk : kv.1 = k
    · exact Or.inl hk.symm
    · rw [if_neg hk] at h
      exact Or.inr (ih h)

theorem alistLookup_none_of_not_mem (m : Alist) (k : String) (h : ¬ k ∈ keysOf m) :
    alistLookup m k = none := by
  cases hl : alistLookup m k with
  | none => rfl
  | some v => exact absurd (lookup_mem_keysOf m k v hl) h

theorem mem_keysOf_set (m : Alist) (k v x : String) :
    x ∈ keysOf (alistSet m k v) ↔ x = k ∨ x ∈ keysOf m := by
  induction m with
  | nil => simp [alistSet, keysOf]
  | cons kv rest ih =>
    by_cases hk : kv.1 = k
    · subst hk
      simp only [alistSet, if_true]
      simp only [keysOf, List.map_cons, List.mem_cons]
      tauto
    · simp only [alistSet, if_neg hk, keysOf, List.map_cons, List.mem_cons]
      rw [show (x ∈ List.map Prod.fst (alistSet rest k v)) ↔ (x = k ∨ x ∈ List.map Prod.fst rest) from ih]
      tauto

theorem keysOf_set_of_mem (m : Alist) (k v : String) (h : k ∈ keysOf m) :
    keysOf (alistSet m k v) = keysOf m := by
  induction m with
  | nil => simp [keysOf] at h
  | cons kv rest ih =>
    by_cases hk : kv.1 = k
    · simp [alistSet, hk, keysOf]
    · simp only [alistSet, if_neg hk, keysOf, List.map_cons]
      congr 1
      apply ih
      simp only [keysOf, List.map_cons, List.mem_cons] at h
      rcases h with h | h
      · exact absurd h.symm hk
      · exact h

theorem keysOf_set_nodup (m : Alist) (k v : String) (h : (keysOf m).Nodup) :
    (keysOf (alistSet m k v)).Nodup := by
  induction m with
  | nil => simp [alistSet, keysOf]
  | cons kv rest ih =>
    simp only [keysOf, List.map_cons, List.nodup_cons] at h
    by_cases hk : kv.1 = k
    · subst hk
      simp only [alistSet, if_true]
      simp only [keysOf, List.map_cons, List.nodup_cons]
      exact ⟨h.1, h.2⟩
    · simp only [alistSet, if_neg hk, keysOf, List.map_cons, List.nodup_cons]
      refine ⟨?_, ih h.2⟩
      intro hmem
      rcases (mem_keysOf_set rest k v kv.1).mp hmem with h' | h'
      · exact hk h'
      · exact h.1 h'

theorem alist_ext (m : Alist) : ∀ (m' : Alist), keysOf m = keysOf m' →
    (keysOf m').Nodup → (∀ k, alistLookup m k = alistLookup m' k) → m = m' := by
  induction m with
  | nil =>
    intro m' hkeys _ _
    cases m' with
    | nil => rfl
    | cons kv rest => simp [keysOf] at hkeys
  | cons kv rest ih =>
    intro m' hkeys hnd hlook
    cases m' with
    | nil => simp [keysOf] at hkeys
    | cons kv' rest' =>
      simp only [keysOf, List.map_cons, List.cons.injEq] at hkeys
      obtain ⟨hk1, hkrest⟩ := hkeys
      simp only [keysOf, List.map_cons, List.nodup_cons] at hnd
      have hl := hlook kv.1
      rw [alistLookup_cons, alistLookup_cons, if_pos rfl, if_pos hk1.symm] at hl
      have hv : kv.2 = kv'.2 := Option.some.inj hl
      have htail : ∀ k, alistLookup rest k = alistLookup rest' k := by
        intro k
        by_cases hkk : kv.1 = k
        · rw [alistLookup_none_of_not_mem rest k ?h1, alistLookup_none_of_not_mem rest' k ?h2]
          case h2 =>
            rw [← hkk, hk1]
            exact fun hc => hnd.1 hc
          case h1 =>
            rw [← hkk]
            show ¬ kv.1 ∈ keysOf rest
            rw [show keysOf rest = keysOf rest' from hkrest, hk1]
            exact fun hc => hnd.1 hc
        · have := hlook k
          rw [alistLookup_cons, alistLookup_cons, if_neg hkk,
            if_neg (by rw [← hk1]; exact hkk)] at this
          exact this
      have hrest : rest = rest' := ih rest' hkrest hnd.2 htail
      obtain ⟨a, b⟩ := kv
      obtain ⟨a', b'⟩ := kv'
      simp only at hk1 hv
      rw [hk1, hv, hrest]

/-! ### C4 infrastructure: the write sequence of strategy 1 -/

/-- Sequential application of a list of dict assignments. -/
def writesApply (ws m : Alist) : Alist := ws.foldl (fun r w => alistSet r w.1 w.2) m

theorem writesApply_cons (w : String × String) (ws m : Alist) :
    writesApply (w :: ws) m = writesApply ws (alistSet m w.1 w.2) := rfl

theorem alistLookup_append (l1 l2 : Alist) (k : String) :
    alistLookup (l1 ++ l2) k = (alistLookup l1 k).or (alistLookup l2 k) := by
  unfold alistLookup
  rw [List.find?_append]
  cases List.find? (fun kv => kv.1 == k) l1 <;> simp

theorem writesApply_lookup (ws : Alist) : ∀ (m : Alist) (k : String),
    alistLookup (writesApply ws m) k = (alistLookup ws.reverse k).or (alistLookup m k) := by
  induction ws with
  | nil => intro m k; simp [writesApply, alistLookup]
  | cons w rest ih =>
    intro m k
    rw [writesApply_cons, ih, List.reverse_cons, alistLookup_append, alistLookup_set]
    cases hr : alistLookup rest.reverse k with
    | some v => simp
    | none =>
      simp only [Option.none_or]
      rw [alistLookup_cons]
      by_cases hk : k = w.1
      · rw [if_pos hk, if_pos hk.symm]
        simp [alistLookup]
      · rw [if_neg hk, if_neg (fun he => hk he.symm)]
        simp [alistLookup]

theorem writesApply_keys (ws : Alist) : ∀ (m : Alist),
    (∀ w ∈ ws, w.1 ∈ keysOf m) → keysOf (writesApply ws m) = keysOf m := by
  induction ws with
  | nil => intro m _; rfl
  | cons w rest ih =>
    intro m h
    rw [writesApply_cons]
    have hk : keysOf (alistSet m w.1 w.2) = keysOf m :=
      keysOf_set_of_mem m w.1 w.2 (h w (List.mem_cons_self w rest))
    rw [ih _ (fun x hx => by rw [hk]; exact h x (List.mem_cons_of_mem w hx)), hk]

theorem writesApply_nodup (ws : Alist) : ∀ (m : Alist),
    (keysOf m).Nodup → (keysOf (writesApply ws m)).Nodup := by
  induction ws with
  | nil => intro m h; exact h
  | cons w rest ih =>
    intro m h
    rw [writesApply_cons]
    exact ih _ (keysOf_set_nodup m w.1 w.2 h)

/-- The sequence of registry assignments performed by strategy 1: it stops
at the first failing sub-key read and keeps only entries whose path
exists. -/
def effWrites (env : Env) : List (Except Unit (String × String)) → Alist
  | [] => []
  | .error _ :: _ => []
  | .ok (sub, path) :: rest =>
    if env.pathExists path then (pyLower (splitextRoot sub), path) :: effWrites env rest
    else effWrites env rest

theorem app_paths_loop_registry (env : Env) (items : List (Except Unit (String × String))) :
    ∀ (st : RegState) (k : String),
    alistLookup ((app_paths_loop env items st).app_registry) k
      = (alistLookup (effWrites env items).reverse k).or (alistLookup st.app_registry k) := by
  induction items with
  | nil => intro st k; simp [app_paths_loop, effWrites, alistLookup]
  | cons it rest ih =>
    intro st k
    match it with
    | .error u => simp [app_paths_loop, effWrites, alistLookup]
    | .ok (sub, path) =>
      simp only [app_paths_loop, effWrites]
      by_cases hp : env.pathExists path = true
      · rw [if_pos hp, if_pos hp, ih]
        rw [List.reverse_cons, alistLookup_append]
        show _ = ((alistLookup (effWrites env rest).reverse k).or _).or _
        cases hr : alistLookup (effWrites env rest).reverse k with
        | some v => simp
        | none =>
          simp only [Option.none_or]
          show alistLookup (alistSet st.app_registry (pyLower (splitextRoot sub)) path) k = _
          rw [alistLookup_set, alistLookup_cons]
          by_cases hk : k = pyLower (splitextRoot sub)
          · rw [if_pos hk, if_pos hk.symm]
            simp [alistLookup]
          · rw [if_neg hk, if_neg (fun he => hk he.symm)]
            simp [alistLookup]
      · rw [if_neg hp, if_neg hp, ih]

theorem app_paths_loop_char (env : Env) (items : List (Except Unit (String × String))) :
    ∀ (st : RegState),
    (∀ a ∈ keysOf (effWrites env items), alistMem st.window_patterns a = true) →
    app_paths_loop env items st
      = ⟨writesApply (effWrites env items) st.app_registry, st.window_patterns⟩ := by
  induction items with
  | nil => intro st _; rfl
  | cons it rest ih =>
    intro st hpat
    match it with
    | .error u => rfl
    | .ok (sub, path) =>
      simp only [app_paths_loop, effWrites] at hpat ⊢
      by_cases hp : env.pathExists path = true
      · rw [if_pos hp] at hpat
        rw [if_pos hp, if_pos hp]
        have hmem : alistMem st.window_patterns (pyLower (splitextRoot sub)) = true :=
          hpat _ (by simp [keysOf])
        rw [if_pos hmem]
        rw [ih ⟨alistSet st.app_registry (pyLower (splitextRoot sub)) path, st.window_patterns⟩
          (fun a ha => hpat a (by
            simp only [keysOf, List.map_cons, List.mem_cons]
            exact Or.inr (by simpa [keysOf] using ha)))]
        rfl
      · rw [if_neg hp] at hpat
        rw [if_neg hp, if_neg hp]
        exact ih st hpat

theorem app_paths_loop_patmem_mono (env : Env) (items : List (Except Unit (String × String))) :
    ∀ (st : RegState) (x : String), alistMem st.window_patterns x = true →
    alistMem ((app_paths_loop env items st).window_patterns) x = true := by
  induction items with
  | nil => intro st x h; exact h
  | cons it rest ih =>
    intro st x h
    match it with
    | .error u => exact h
    | .ok (sub, path) =>
      simp only [app_paths_loop]
      by_cases hp : env.pathExists path = true
      · rw [if_pos hp]
        apply ih
        by_cases hm : alistMem st.window_patterns (pyLower (splitextRoot sub)) = true
        · rw [if_pos hm]; exact h
        · rw [if_neg hm]; exact alistMem_set_mono _ _ _ _ h
      · rw [if_neg hp]
        exact ih st x h

theorem app_paths_loop_pat_cover (env : Env) (items : List (Except Unit (String × String))) :
    ∀ (st : RegState) (a : String), a ∈ keysOf (effWrites env items) →
    alistMem ((app_paths_loop env items st).window_patterns) a = true := by
  induction items with
  | nil => intro st a ha; simp [effWrites, keysOf] at ha
  | cons it rest ih =>
    intro st a ha
    match it with
    | .error u => simp [effWrites, keysOf] at ha
    | .ok (sub, path) =>
      simp only [app_paths_loop, effWrites] at ha ⊢
      by_cases hp : env.pathExists path = true
      · rw [if_pos hp] at ha
        rw [if_pos hp]
        simp only [keysOf, List.map_cons, List.mem_cons] at ha
        rcases ha with ha | ha
        · subst ha
          apply app_paths_loop_patmem_mono
          by_cases hm : alistMem st.window_patterns (pyLower (splitextRoot sub)) = true
          · rw [if_pos hm]; exact hm
          · rw [if_neg hm]
            exact alistMem_of_lookup _ _ _ (alistLookup_set_self _ _ _)
        · exact ih _ a (by simpa [keysOf] using ha)
      · rw [if_neg hp] at ha
        rw [if_neg hp]
        exact ih _ a ha

/-! ### C4 infrastructure: strategy 2 effect -/

/-- The key strategy 2 would insert for one readable record, if any. -/
def uninstallEff (env : Env) (dn il : String) : Option String :=
  match firstWord (pyLower dn) with
  | none => none
  | some a =>
    if il != "" && env.pathExists il then
      match env.listDir il with
      | .error _ => none
      | .ok files =>
        match files.find? (fun f => pyEndsWith (pyLower f) ".exe") with
        | none => none
        | some _ => some a
    else none

theorem uninstall_step_eff_none (env : Env) (dn il : String) (st : RegState)
    (h : uninstallEff env dn il = none) : uninstall_step env dn il st = st := by
  unfold uninstall_step
  split
  · rfl
  rename_i a hfw
  split
  · rename_i hc
    split
    · rfl
    · rename_i files hfl
      split
      · rfl
      · rename_i f hff
        simp only [uninstallEff, hfw] at h
        rw [if_pos hc] at h
        simp only [hfl, hff] at h
        exact Option.noConfusion h
  · rfl

theorem uninstall_step_eff_mem (env : Env) (dn il : String) (st : RegState) (a : String)
    (h : uninstallEff env dn il = some a) (hm : alistMem st.app_registry a = true) :
    uninstall_step env dn il st = st := by
  unfold uninstall_step
  split
  · rfl
  rename_i a' hfw
  split
  · rename_i hc
    split
    · rfl
    · rename_i files hfl
      split
      · rfl
      · rename_i f hff
        simp only [uninstallEff, hfw] at h
        rw [if_pos hc] at h
        simp only [hfl, hff, Option.some.injEq] at h
        rw [h, if_pos hm]
  · rfl

theorem uninstall_step_cover (env : Env) (dn il : String) (st : RegState) (a : String)
    (h : uninstallEff env dn il = some a) :
    alistMem ((uninstall_step env dn il st).app_registry) a = true := by
  unfold uninstall_step
  split
  · rename_i hfw
    simp only [uninstallEff, hfw] at h
    exact Option.noConfusion h
  rename_i a' hfw
  split
  · rename_i hc
    split
    · rename_i u hfl
      simp only [uninstallEff, hfw] at h
      rw [if_pos hc] at h
      simp only [hfl] at h
      exact Option.noConfusion h
    · rename_i files hfl
      split
      · rename_i hff
        simp only [uninstallEff, hfw] at h
        rw [if_pos hc] at h
        simp only [hfl, hff] at h
        exact Option.noConfusion h
      · rename_i f hff
        simp only [uninstallEff, hfw] at h
        rw [if_pos hc] at h
        simp only [hfl, hff, Option.some.injEq] at h
        subst h
        split
        · rename_i hm; exact hm
        · exact alistMem_of_lookup _ _ _ (alistLookup_set_self _ _ _)
  · rename_i hc
    simp only [uninstallEff, hfw] at h
    rw [if_neg hc] at h
    exact Option.noConfusion h

theorem uninstall_step_nodup (env : Env) (dn il : String) (st : RegState)
    (h : (keysOf st.app_registry).Nodup) :
    (keysOf (uninstall_step env dn il st).app_registry).Nodup := by
  unfold uninstall_step
  split
  · exact h
  split
  · split
    · exact h
    · split
      · exact h
      · split
        · exact h
        · exact keysOf_set_nodup _ _ _ h
  · exact h

theorem uninstall_step_patmem_mono (env : Env) (dn il : String) (st : RegState) (x : String)
    (h : alistMem st.window_patterns x = true) :
    alistMem ((uninstall_step env dn il st).window_patterns) x = true := by
  unfold uninstall_step
  split
  · exact h
  rename_i a hfw
  split
  · split
    · exact h
    · split
      · exact h
      · split
        · exact h
        · show alistMem (if alistMem st.window_patterns a = true
              then st.window_patterns else alistSet st.window_patterns a dn) x = true
          split
          · exact h
          · exact alistMem_set_mono _ _ _ _ h
  · exact h

theorem uninstall_loop_mem_mono (env : Env) (items : List UItem) (st : RegState) (x : String)
    (h : alistMem st.app_registry x = true) :
    alistMem ((uninstall_loop env items st).app_registry) x = true := by
  obtain ⟨v, hv⟩ := (alistMem_iff_lookup _ _).mp h
  exact alistMem_of_lookup _ _ v (uninstall_loop_lookup_pres env items st x v hv)

theorem uninstall_loop_patmem_mono (env : Env) (items : List UItem) :
    ∀ (st : RegState) (x : String), alistMem st.window_patterns x = true →
    alistMem ((uninstall_loop env items st).window_patterns) x = true := by
  induction items with
  | nil => intro st x h; exact h
  | cons it rest ih =>
    intro st x h
    match it with
    | .fatal => exact h
    | .skip => exact ih st x h
    | .entry dn il => exact ih _ x (uninstall_step_patmem_mono env dn il st x h)

theorem uninstall_loop_nodup (env : Env) (items : List UItem) :
    ∀ (st : RegState), (keysOf st.app_registry).Nodup →
    (keysOf (uninstall_loop env items st).app_registry).Nodup := by
  induction items with
  | nil => intro st h; exact h
  | cons it rest ih =>
    intro st h
    match it with
    | .fatal => exact h
    | .skip => exact ih st h
    | .entry dn il => exact ih _ (uninstall_step_nodup env dn il st h)

/-- The records strategy 2 actually processes: the enumeration stops at the
first fatal read. -/
def uTrunc : List UItem → List UItem
  | [] => []
  | .fatal :: _ => []
  | it :: rest => it :: uTrunc rest

theorem uninstall_loop_id (env : Env) (items : List UItem) :
    ∀ (st : RegState),
    (∀ dn il a, UItem.entry dn il ∈ uTrunc items → uninstallEff env dn il = some a →
      alistMem st.app_registry a = true) →
    uninstall_loop env items st = st := by
  induction items with
  | nil => intro st _; rfl
  | cons it rest ih =>
    intro st h
    match it with
    | .fatal => rfl
    | .skip =>
      exact ih st (fun dn il a hmem heff =>
        h dn il a (List.mem_cons_of_mem _ hmem) heff)
    | .entry dn il =>
      have hstep : uninstall_step env dn il st = st := by
        cases heff : uninstallEff env dn il with
        | none => exact uninstall_step_eff_none env dn il st heff
        | some a =>
          exact uninstall_step_eff_mem env dn il st a heff
            (h dn il a (List.mem_cons_self _ _) heff)
      show uninstall_loop env rest (uninstall_step env dn il st) = st
      rw [hstep]
      exact ih st (fun dn' il' a hmem heff =>
        h dn' il' a (List.mem_cons_of_mem _ hmem) heff)

theorem uninstall_loop_cover (env : Env) (items : List UItem) :
    ∀ (st : RegState) (dn il a : String),
    UItem.entry dn il ∈ uTrunc items → uninstallEff env dn il = some a →
    alistMem ((uninstall_loop env items st).app_registry) a = true := by
  induction items with
  | nil => intro st dn il a hmem _; exact absurd hmem (List.not_mem_nil _)
  | cons it rest ih =>
    intro st dn il a hmem heff
    match it with
    | .fatal => exact absurd hmem (List.not_mem_nil _)
    | .skip =>
      rcases List.mem_cons.mp hmem with h' | h'
      · exact absurd h' (by simp)
      · exact ih st dn il a h' heff
    | .entry dn' il' =>
      rcases List.mem_cons.mp hmem with h' | h'
      · injection h' with h1 h2
        subst h1; subst h2
        exact uninstall_loop_mem_mono env rest _ a (uninstall_step_cover env dn il st a heff)
      · exact ih _ dn il a h' heff

/-! ### C4 infrastructure: strategy 3 hits -/

/-- Whether the depth-1 scan of one search path hits `e` in some
sub-directory. -/
def fsSubdirHit (env : Env) (sp e : String) (subs : List String) : Bool :=
  subs.any (fun d => env.isDir (joinPath sp d) && env.pathExists (joinPath (joinPath sp d) e))

/-- Whether one search path yields a hit for one of the executable names. -/
def fsExeHit (env : Env) (sp : String) (exes : List String) : Bool :=
  exes.any (fun e => env.pathExists (joinPath sp e) ||
    (match env.listDir sp with
     | .error _ => false
     | .ok subs => fsSubdirHit env sp e subs))

/-- Whether any search path yields a hit. -/
def fsHit (env : Env) (sps exes : List String) : Bool :=
  sps.any (fun sp => fsExeHit env sp exes)

theorem fs_subdir_loop_no_hit (env : Env) (sp an e : String) (subs : List String) :
    ∀ (st : RegState), fsSubdirHit env sp e subs = false →
    fs_subdir_loop env sp an e subs st = st := by
  induction subs with
  | nil => intro st _; rfl
  | cons d rest ih =>
    intro st h
    simp only [fsSubdirHit, List.any_cons, Bool.or_eq_false_iff] at h
    simp only [fs_subdir_loop]
    by_cases h1 : env.isDir (joinPath sp d) = true
    · rw [if_pos h1]
      by_cases h2 : env.pathExists (joinPath (joinPath sp d) e) = true
      · exfalso
        rw [h1, h2] at h
        simp at h
      · rw [if_neg h2]
        exact ih st h.2
    · rw [if_neg h1]
      exact ih st h.2

theorem fs_subdir_loop_mem_mono (env : Env) (sp an e : String) (subs : List String) :
    ∀ (st : RegState) (x : String), alistMem st.app_registry x = true →
    alistMem ((fs_subdir_loop env sp an e subs st).app_registry) x = true := by
  induction subs with
  | nil => intro st x h; exact h
  | cons d rest ih =>
    intro st x h
    simp only [fs_subdir_loop]
    by_cases h1 : env.isDir (joinPath sp d) = true
    · rw [if_pos h1]
      by_cases h2 : env.pathExists (joinPath (joinPath sp d) e) = true
      · rw [if_pos h2]
        exact alistMem_set_mono _ _ _ _ h
      · rw [if_neg h2]
        exact ih st x h
    · rw [if_neg h1]
      exact ih st x h

theorem fs_subdir_loop_cover (env : Env) (sp an e : String) (subs : List String) :
    ∀ (st : RegState), fsSubdirHit env sp e subs = true →
    alistMem ((fs_subdir_loop env sp an e subs st).app_registry) an = true := by
  induction subs with
  | nil => intro st h; simp [fsSubdirHit] at h
  | cons d rest ih =>
    intro st h
    simp only [fsSubdirHit, List.any_cons, Bool.or_eq_true] at h
    simp only [fs_subdir_loop]
    by_cases h1 : env.isDir (joinPath sp d) = true
    · rw [if_pos h1]
      by_cases h2 : env.pathExists (joinPath (joinPath sp d) e) = true
      · rw [if_pos h2]
        exact alistMem_of_lookup _ _ _ (alistLookup_set_self _ _ _)
      · rw [if_neg h2]
        apply ih
        rcases h with h | h
        · exfalso; rw [Bool.and_eq_true] at h; exact h2 h.2
        · exact h
    · rw [if_neg h1]
      apply ih
      rcases h with h | h
      · exfalso; rw [Bool.and_eq_true] at h; exact h1 h.1
      · exact h

theorem fs_subdir_loop_nodup (env : Env) (sp an e : String) (subs : List String) :
    ∀ (st : RegState), (keysOf st.app_registry).Nodup →
    (keysOf (fs_subdir_loop env sp an e subs st).app_registry).Nodup := by
  induction subs with
  | nil => intro st h; exact h
  | cons d rest ih =>
    intro st h
    simp only [fs_subdir_loop]
    by_cases h1 : env.isDir (joinPath sp d) = true
    · rw [if_pos h1]
      by_cases h2 : env.pathExists (joinPath (joinPath sp d) e) = true
      · rw [if_pos h2]
        exact keysOf_set_nodup _ _ _ h
      · rw [if_neg h2]
        exact ih st h
    · rw [if_neg h1]
      exact ih st h

theorem fs_subdir_loop_patterns (env : Env) (sp an e : String) (subs : List String) :
    ∀ (st : RegState),
    (fs_subdir_loop env sp an e subs st).window_patterns = st.window_patterns := by
  induction subs with
  | nil => intro st; rfl
  | cons d rest ih =>
    intro st
    simp only [fs_subdir_loop]
    by_cases h1 : env.isDir (joinPath sp d) = true
    · rw [if_pos h1]
      by_cases h2 : env.pathExists (joinPath (joinPath sp d) e) = true
      · rw [if_pos h2]
      · rw [if_neg h2]
        exact ih st
    · rw [if_neg h1]
      exact ih st

theorem fs_exe_loop_no_hit (env : Env) (sp an : String) (exes : List String) :
    ∀ (st : RegState), fsExeHit env sp exes = false →
    fs_exe_loop env sp an exes st = st := by
  induction exes with
  | nil => intro st _; rfl
  | cons e rest ih =>
    intro st h
    simp only [fsExeHit, List.any_cons, Bool.or_eq_false_iff] at h
    obtain ⟨⟨h1, h2⟩, h3⟩ := h
    simp only [fs_exe_loop]
    rw [if_neg (by simp [h1])]
    cases hl : env.listDir sp with
    | error u => exact ih st h3
    | ok subs =>
      show fs_exe_loop env sp an rest (fs_subdir_loop env sp an e subs st) = st
      have hsub : fsSubdirHit env sp e subs = false := by
        rw [hl] at h2; exact h2
      rw [fs_subdir_loop_no_hit env sp an e subs st hsub]
      exact ih st h3

theorem fs_exe_loop_mem_mono (env : Env) (sp an : String) (exes : List String) :
    ∀ (st : RegState) (x : String), alistMem st.app_registry x = true →
    alistMem ((fs_exe_loop env sp an exes st).app_registry) x = true := by
  induction exes with
  | nil => intro st x h; exact h
  | cons e rest ih =>
    intro st x h
    simp only [fs_exe_loop]
    by_cases h1 : env.pathExists (joinPath sp e) = true
    · rw [if_pos h1]
      exact alistMem_set_mono _ _ _ _ h
    · rw [if_neg h1]
      cases hl : env.listDir sp with
      | error u => exact ih st x h
      | ok subs =>
        show alistMem ((fs_exe_loop env sp an rest
          (fs_subdir_loop env sp an e subs st)).app_registry) x = true
        exact ih _ x (fs_subdir_loop_mem_mono env sp an e subs st x h)

theorem fs_exe_loop_cover (env : Env) (sp an : String) (exes : List String) :
    ∀ (st : RegState), fsExeHit env sp exes = true →
    alistMem ((fs_exe_loop env sp an exes st).app_registry) an = true := by
  induction exes with
  | nil => intro st h; simp [fsExeHit] at h
  | cons e rest ih =>
    intro st h
    simp only [fsExeHit, List.any_cons, Bool.or_eq_true] at h
    simp only [fs_exe_loop]
    by_cases h1 : env.pathExists (joinPath sp e) = true
    · rw [if_pos h1]
      exact alistMem_of_lookup _ _ _ (alistLookup_set_self _ _ _)
    · rw [if_neg h1]
      cases hl : env.listDir sp with
      | error u =>
        apply ih
        rcases h with (h | h) | h
        · exact absurd h h1
        · rw [hl] at h; exact Bool.noConfusion h
        · exact h
      | ok subs =>
        show alistMem ((fs_exe_loop env sp an rest
          (fs_subdir_loop env sp an e subs st)).app_registry) an = true
        rcases h with (h | h) | h
        · exact absurd h h1
        · rw [hl] at h
          exact fs_exe_loop_mem_mono env sp an rest _ an
            (fs_subdir_loop_cover env sp an e subs st h)
        · exact ih _ h

theorem fs_exe_loop_nodup (env : Env) (sp an : String) (exes : List String) :
    ∀ (st : RegState), (keysOf st.app_registry).Nodup →
    (keysOf (fs_exe_loop env sp an exes st).app_registry).Nodup := by
  induction exes with
  | nil => intro st h; exact h
  | cons e rest ih =>
    intro st h
    simp only [fs_exe_loop]
    by_cases h1 : env.pathExists (joinPath sp e) = true
    · rw [if_pos h1]
      exact keysOf_set_nodup _ _ _ h
    · rw [if_neg h1]
      cases hl : env.listDir sp with
      | error u => exact ih st h
      | ok subs =>
        show (keysOf (fs_exe_loop env sp an rest
          (fs_subdir_loop env sp an e subs st)).app_registry).Nodup
        exact ih _ (fs_subdir_loop_nodup env sp an e subs st h)

theorem fs_exe_loop_patterns (env : Env) (sp an : String) (exes : List String) :
    ∀ (st : RegState),
    (fs_exe_loop env sp an exes st).window_patterns = st.window_patterns := by
  induction exes with
  | nil => intro st; rfl
  | cons e rest ih =>
    intro st
    simp only [fs_exe_loop]
    by_cases h1 : env.pathExists (joinPath sp e) = true
    · rw [if_pos h1]
    · rw [if_neg h1]
      cases hl : env.listDir sp with
      | error u => exact ih st
      | ok subs =>
        show (fs_exe_loop env sp an rest
          (fs_subdir_loop env sp an e subs st)).window_patterns = st.window_patterns
        rw [ih _]
        exact fs_subdir_loop_patterns env sp an e subs st

theorem fs_path_loop_id (env : Env) (an : String) (exes sps : List String) :
    ∀ (st : RegState), fsHit env sps exes = false →
    fs_path_loop env an exes sps st = st := by
  induction sps with
  | nil => intro st _; rfl
  | cons sp rest ih =>
    intro st h
    simp only [fsHit, List.any_cons, Bool.or_eq_false_iff] at h
    simp only [fs_path_loop]
    rw [fs_exe_loop_no_hit env sp an exes st h.1]
    by_cases hm : alistMem st.app_registry an = true
    · rw [if_pos hm]
    · rw [if_neg hm]
      exact ih st h.2

theorem fs_path_loop_mem_mono (env : Env) (an : String) (exes sps : List String) :
    ∀ (st : RegState) (x : String), alistMem st.app_registry x = true →
    alistMem ((fs_path_loop env an exes sps st).app_registry) x = true := by
  induction sps with
  | nil => intro st x h; exact h
  | cons sp rest ih =>
    intro st x h
    simp only [fs_path_loop]
    by_cases hm : alistMem ((fs_exe_loop env sp an exes st).app_registry) an = true
    · rw [if_pos hm]
      exact fs_exe_loop_mem_mono env sp an exes st x h
    · rw [if_neg hm]
      exact ih _ x (fs_exe_loop_mem_mono env sp an exes st x h)

theorem fs_path_loop_cover (env : Env) (an : String) (exes sps : List String) :
    ∀ (st : RegState), fsHit env sps exes = true →
    alistMem ((fs_path_loop env an exes sps st).app_registry) an = true := by
  induction sps with
  | nil => intro st h; simp [fsHit] at h
  | cons sp rest ih =>
    intro st h
    simp only [fsHit, List.any_cons, Bool.or_eq_true] at h
    simp only [fs_path_loop]
    by_cases hm : alistMem ((fs_exe_loop env sp an exes st).app_registry) an = true
    · rw [if_pos hm]
      exact hm
    · rw [if_neg hm]
      rcases h with h | h

      · exact absurd (fs_exe_loop_cover env sp an exes st h) hm
      · exact ih _ h

theorem fs_path_loop_nodup (env : Env) (an : String) (exes sps : List String) :
    ∀ (st : RegState), (keysOf st.app_registry).Nodup →
    (keysOf (fs_path_loop env an exes sps st).app_registry).Nodup := by
  induction sps with
  | nil => intro st h; exact h
  | cons sp rest ih =>
    intro st h
    simp only [fs_path_loop]
    by_cases hm : alistMem ((fs_exe_loop env sp an exes st).app_registry) an = true
    · rw [if_pos hm]
      exact fs_exe_loop_nodup env sp an exes st h
    · rw [if_neg hm]
      exact ih _ (fs_exe_loop_nodup env sp an exes st h)

theorem fs_path_loop_patterns (env : Env) (an : String) (exes sps : List String) :
    ∀ (st : RegState),
    (fs_path_loop env an exes sps st).window_patterns = st.window_patterns := by
  induction sps with
  | nil => intro st; rfl
  | cons sp rest ih =>
    intro st
    simp only [fs_path_loop]
    by_cases hm : alistMem ((fs_exe_loop env sp an exes st).app_registry) an = true
    · rw [if_pos hm]
      exact fs_exe_loop_patterns env sp an exes st
    · rw [if_neg hm]
      rw [ih _]
      exact fs_exe_loop_patterns env sp an exes st

theorem filesystem_loop_mem_mono (env : Env) (sps : List String)
    (apps : List (String × List String)) (st : RegState) (x : String)
    (h : alistMem st.app_registry x = true) :
    alistMem ((filesystem_loop env sps apps st).app_registry) x = true := by
  obtain ⟨v, hv⟩ := (alistMem_iff_lookup _ _).mp h
  exact alistMem_of_lookup _ _ v (filesystem_loop_lookup_pres env sps apps st x v hv)

theorem filesystem_loop_id (env : Env) (sps : List String)
    (apps : List (String × List String)) :
    ∀ (st : RegState),
    (∀ an exes, (an, exes) ∈ apps →
      alistMem st.app_registry an = true ∨ fsHit env sps exes = false) →
    filesystem_loop env sps apps st = st := by
  induction apps with
  | nil => intro st _; rfl
  | cons pr rest ih =>
    obtain ⟨an, exes⟩ := pr
    intro st h
    simp only [filesystem_loop]
    by_cases hm : alistMem st.app_registry an = true
    · rw [if_pos hm]
      exact ih st (fun a e hmem => h a e (List.mem_cons_of_mem _ hmem))
    · rw [if_neg hm]
      rcases h an exes (List.mem_cons_self _ _) with h' | h'
      · exact absurd h' hm
      · rw [fs_path_loop_id env an exes sps st h']
        exact ih st (fun a e hmem => h a e (List.mem_cons_of_mem _ hmem))

theorem filesystem_loop_cover (env : Env) (sps : List String)
    (apps : List (String × List String)) :
    ∀ (st : RegState) (an : String) (exes : List String), (an, exes) ∈ apps →
    alistMem ((filesystem_loop env sps apps st).app_registry) an = true
      ∨ fsHit env sps exes = false := by
  induction apps with
  | nil => intro st an exes h; exact absurd h (List.not_mem_nil _)
  | cons pr rest ih =>
    obtain ⟨an', exes'⟩ := pr
    intro st an exes h
    simp only [filesystem_loop]
    rcases List.mem_cons.mp h with h' | h'
    · injection h' with h1 h2
      subst h1; subst h2
      by_cases hm : alistMem st.app_registry an = true
      · rw [if_pos hm]
        exact Or.inl (filesystem_loop_mem_mono env sps rest st an hm)
      · rw [if_neg hm]
        cases hh : fsHit env sps exes with
        | false => exact Or.inr rfl
        | true =>
          exact Or.inl (filesystem_loop_mem_mono env sps rest _ an
            (fs_path_loop_cover env an exes sps st hh))
    · by_cases hm : alistMem st.app_registry an' = true
      · rw [if_pos hm]
        exact ih st an exes h'
      · rw [if_neg hm]
        exact ih _ an exes h'

theorem filesystem_loop_nodup (env : Env) (sps : List String)
    (apps : List (String × List String)) :
    ∀ (st : RegState), (keysOf st.app_registry).Nodup →
    (keysOf (filesystem_loop env sps apps st).app_registry).Nodup := by
  induction apps with
  | nil => intro st h; exact h
  | cons pr rest ih =>
    obtain ⟨an, exes⟩ := pr
    intro st h
    simp only [filesystem_loop]
    by_cases hm : alistMem st.app_registry an = true
    · rw [if_pos hm]
      exact ih st h
    · rw [if_neg hm]
      exact ih _ (fs_path_loop_nodup env an exes sps st h)

theorem filesystem_loop_patterns (env : Env) (sps : List String)
    (apps : List (String × List String)) :
    ∀ (st : RegState),
    (filesystem_loop env sps apps st).window_patterns = st.window_patterns := by
  induction apps with
  | nil => intro st; rfl
  | cons pr rest ih =>
    obtain ⟨an, exes⟩ := pr
    intro st
    simp only [filesystem_loop]
    by_cases hm : alistMem st.app_registry an = true
    · rw [if_pos hm]
      exact ih st
    · rw [if_neg hm]
      rw [ih _]
      exact fs_path_loop_patterns env an exes sps st

/-! ### C4 infrastructure: strategy 4 hits -/

/-- Whether the external `where` probe succeeds with at least one output
line for one of the executable names. -/
def whereHit (env : Env) (exes : List String) : Bool :=
  exes.any (fun e =>
    match env.whereCmd e with
    | some (_ :: _) => true
    | _ => false)

theorem where_exe_loop_no_hit (env : Env) (an : String) (exes : List String) :
    ∀ (st : RegState), whereHit env exes = false →
    where_exe_loop env an exes st = st := by
  induction exes with
  | nil => intro st _; rfl
  | cons e rest ih =>
    intro st h
    simp only [whereHit, List.any_cons, Bool.or_eq_false_iff] at h
    simp only [where_exe_loop]
    cases hw : env.whereCmd e with
    | none => exact ih st h.2
    | some paths =>
      cases paths with
      | nil => exact ih st h.2
      | cons p ps =>
        exfalso
        rw [hw] at h
        simp at h

theorem where_exe_loop_mem_mono (env : Env) (an : String) (exes : List String) :
    ∀ (st : RegState) (x : String), alistMem st.app_registry x = true →
    alistMem ((where_exe_loop env an exes st).app_registry) x = true := by
  induction exes with
  | nil => intro st x h; exact h
  | cons e rest ih =>
    intro st x h
    simp only [where_exe_loop]
    cases env.whereCmd e with
    | none => exact ih st x h
    | some paths =>
      cases paths with
      | nil => exact ih st x h
      | cons p ps => exact alistMem_set_mono _ _ _ _ h

theorem where_exe_loop_cover (env : Env) (an : String) (exes : List String) :
    ∀ (st : RegState), whereHit env exes = true →
    alistMem ((where_exe_loop env an exes st).app_registry) an = true := by
  induction exes with
  | nil => intro st h; simp [whereHit] at h
  | cons e rest ih =>
    intro st h
    simp only [whereHit, List.any_cons, Bool.or_eq_true] at h
    simp only [where_exe_loop]
    cases hw : env.whereCmd e with
    | none =>
      apply ih
      rcases h with h | h
      · rw [hw] at h; exact Bool.noConfusion h
      · exact h
    | some paths =>
      cases paths with
      | nil =>
        apply ih
        rcases h with h | h
        · rw [hw] at h; exact Bool.noConfusion h
        · exact h
      | cons p ps =>
        exact alistMem_of_lookup _ _ _ (alistLookup_set_self _ _ _)

theorem where_exe_loop_nodup (env : Env) (an : String) (exes : List String) :
    ∀ (st : RegState), (keysOf st.app_registry).Nodup →
    (keysOf (where_exe_loop env an exes st).app_registry).Nodup := by
  induction exes with
  | nil => intro st h; exact h
  | cons e rest ih =>
    intro st h
    simp only [where_exe_loop]
    cases env.whereCmd e with
    | none => exact ih st h
    | some paths =>
      cases paths with
      | nil => exact ih st h
      | cons p ps => exact keysOf_set_nodup _ _ _ h

theorem where_exe_loop_patterns (env : Env) (an : String) (exes : List String) :
    ∀ (st : RegState),
    (where_exe_loop env an exes st).window_patterns = st.window_patterns := by
  induction exes with
  | nil => intro st; rfl
  | cons e rest ih =>
    intro st
    simp only [where_exe_loop]
    cases env.whereCmd e with
    | none => exact ih st
    | some paths =>
      cases paths with
      | nil => exact ih st
      | cons p ps => rfl

theorem where_loop_mem_mono (env : Env) (apps : List (String × List String))
    (st : RegState) (x : String) (h : alistMem st.app_registry x = true) :
    alistMem ((where_loop env apps st).app_registry) x = true := by
  obtain ⟨v, hv⟩ := (alistMem_iff_lookup _ _).mp h
  exact alistMem_of_lookup _ _ v (where_loop_lookup_pres env apps st x v hv)

theorem where_loop_id (env : Env) (apps : List (String × List String)) :
    ∀ (st : RegState),
    (∀ an exes, (an, exes) ∈ apps →
      alistMem st.app_registry an = true ∨ whereHit env exes = false) →
    where_loop env apps st = st := by
  induction apps with
  | nil => intro st _; rfl
  | cons pr rest ih =>
    obtain ⟨an, exes⟩ := pr
    intro st h
    simp only [where_loop]
    by_cases hm : alistMem st.app_registry an = true
    · rw [if_pos hm]
      exact ih st (fun a e hmem => h a e (List.mem_cons_of_mem _ hmem))
    · rw [if_neg hm]
      rcases h an exes (List.mem_cons_self _ _) with h' | h'
      · exact absurd h' hm
      · rw [where_exe_loop_no_hit env an exes st h']
        exact ih st (fun a e hmem => h a e (List.mem_cons_of_mem _ hmem))

theorem where_loop_cover (env : Env) (apps : List (String × List String)) :
    ∀ (st : RegState) (an : String) (exes : List String), (an, exes) ∈ apps →
    alistMem ((where_loop env apps st).app_registry) an = true
      ∨ whereHit env exes = false := by
  induction apps with
  | nil => intro st an exes h; exact absurd h (List.not_mem_nil _)
  | cons pr rest ih =>
    obtain ⟨an', exes'⟩ := pr
    intro st an exes h
    simp only [where_loop]
    rcases List.mem_cons.mp h with h' | h'
    · injection h' with h1 h2
      subst h1; subst h2
      by_cases hm : alistMem st.app_registry an = true
      · rw [if_pos hm]
        exact Or.inl (where_loop_mem_mono env rest st an hm)
      · rw [if_neg hm]
        cases hh : whereHit env exes with
        | false => exact Or.inr rfl
        | true =>
          exact Or.inl (where_loop_mem_mono env rest _ an
            (where_exe_loop_cover env an exes st hh))
    · by_cases hm : alistMem st.app_registry an' = true
      · rw [if_pos hm]
        exact ih st an exes h'
      · rw [if_neg hm]
        exact ih _ an exes h'

theorem where_loop_nodup (env : Env) (apps : List (String × List String)) :
    ∀ (st : RegState), (keysOf st.app_registry).Nodup →
    (keysOf (where_loop env apps st).app_registry).Nodup := by
  induction apps with
  | nil => intro st h; exact h
  | cons pr rest ih =>
    obtain ⟨an, exes⟩ := pr
    intro st h
    simp only [where_loop]
    by_cases hm : alistMem st.app_registry an = true
    · rw [if_pos hm]
      exact ih st h
    · rw [if_neg hm]
      exact ih _ (where_exe_loop_nodup env an exes st h)

theorem where_loop_patterns (env : Env) (apps : List (String × List String)) :
    ∀ (st : RegState),
    (where_loop env apps st).window_patterns = st.window_patterns := by
  induction apps with
  | nil => intro st; rfl
  | cons pr rest ih =>
    obtain ⟨an, exes⟩ := pr
    intro st
    simp only [where_loop]
    by_cases hm : alistMem st.app_registry an = true
    · rw [if_pos hm]
      exact ih st
    · rw [if_neg hm]
      rw [ih _]
      exact where_exe_loop_patterns env an exes st

/-! ### C4: discovery is idempotent -/

theorem app_paths_loop_nodup (env : Env) (items : List (Except Unit (String × String))) :
    ∀ (st : RegState), (keysOf st.app_registry).Nodup →
    (keysOf (app_paths_loop env items st).app_registry).Nodup := by
  induction items with
  | nil => intro st h; exact h
  | cons it rest ih =>
    intro st h
    match it with
    | .error u => exact h
    | .ok (sub, path) =>
      simp only [app_paths_loop]
      by_cases hp : env.pathExists path = true
      · rw [if_pos hp]
        exact ih _ (keysOf_set_nodup _ _ _ h)
      · rw [if_neg hp]
        exact ih st h

theorem discover_from_app_paths_nodup (env : Env) (st : RegState)
    (h : (keysOf st.app_registry).Nodup) :
    (keysOf (discover_from_app_paths env st).app_registry).Nodup := by
  unfold discover_from_app_paths
  cases env.appPathsHive with
  | error u => exact h
  | ok items => exact app_paths_loop_nodup env items st h

theorem discover_from_uninstall_nodup (env : Env) (st : RegState)
    (h : (keysOf st.app_registry).Nodup) :
    (keysOf (discover_from_uninstall env st).app_registry).Nodup := by
  unfold discover_from_uninstall
  cases env.uninstallHive with
  | error u => exact h
  | ok items => exact uninstall_loop_nodup env items st h

theorem discover_apps_nodup (env : Env) (st : RegState)
    (h : (keysOf st.app_registry).Nodup) :
    (keysOf (discover_apps env st).app_registry).Nodup :=
  where_loop_nodup env common_apps _
    (filesystem_loop_nodup env (get_search_paths env) common_apps _
      (discover_from_uninstall_nodup env _
        (discover_from_app_paths_nodup env st h)))

theorem discover_from_uninstall_patmem_mono (env : Env) (st : RegState) (x : String)
    (h : alistMem st.window_patterns x = true) :
    alistMem ((discover_from_uninstall env st).window_patterns) x = true := by
  unfold discover_from_uninstall
  cases env.uninstallHive with
  | error u => exact h
  | ok items => exact uninstall_loop_patmem_mono env items st x h

theorem discover_apps_patterns_after_s2 (env : Env) (st : RegState) :
    (discover_apps env st).window_patterns
      = (discover_from_uninstall env (discover_from_app_paths env st)).window_patterns := by
  show (where_loop env common_apps
    (filesystem_loop env (get_search_paths env) common_apps _)).window_patterns = _
  rw [where_loop_patterns, filesystem_loop_patterns]

/-- C4: running `_discover_apps` twice against the same unchanged
environment yields exactly the same state (in particular the same registry
key set and the same executable path for every key) as running it once. -/
theorem c4_discover_idempotent (env : Env) :
    discover_apps env (discover_apps env initState) = discover_apps env initState := by
  have hnd : (keysOf (discover_apps env initState).app_registry).Nodup :=
    discover_apps_nodup env initState (by simp [initState, keysOf])
  have hs1 : discover_from_app_paths env (discover_apps env initState)
      = discover_apps env initState := by
    unfold discover_from_app_paths
    cases hhive : env.appPathsHive with
    | error u => rfl
    | ok items =>
      have hF1 : ∀ k v, alistLookup (effWrites env items).reverse k = some v →
          alistLookup (discover_apps env initState).app_registry k = some v := by
        intro k v hv
        have h0 : alistLookup ((discover_from_app_paths env initState).app_registry) k
            = some v := by
          unfold discover_from_app_paths
          rw [hhive]
          show alistLookup ((app_paths_loop env items initState).app_registry) k = some v
          rw [app_paths_loop_registry env items initState k, hv]
          rfl
        exact discover_from_where_lookup_pres env _ k v
          (discover_from_filesystem_lookup_pres env _ _ k v
            (discover_from_uninstall_lookup_pres env _ k v h0))
      have hF2 : ∀ a ∈ keysOf (effWrites env items),
          alistMem (discover_apps env initState).window_patterns a = true := by
        intro a ha
        have h0 : alistMem ((discover_from_app_paths env initState).window_patterns) a
            = true := by
          unfold discover_from_app_paths
          rw [hhive]
          exact app_paths_loop_pat_cover env items initState a ha
        rw [discover_apps_patterns_after_s2 env initState]
        exact discover_from_uninstall_patmem_mono env _ a h0
      have hF3 : ∀ w ∈ effWrites env items,
          w.1 ∈ keysOf (discover_apps env initState).app_registry := by
        intro w hw
        have hrev : w.1 ∈ keysOf (effWrites env items).reverse := by
          show w.1 ∈ List.map Prod.fst (effWrites env items).reverse
          rw [List.map_reverse, List.mem_reverse]
          exact List.mem_map_of_mem Prod.fst hw
        obtain ⟨v, hv⟩ := mem_keysOf_lookup _ _ hrev
        exact lookup_mem_keysOf _ _ v (hF1 w.1 v hv)
      show app_paths_loop env items (discover_apps env initState)
        = discover_apps env initState
      rw [app_paths_loop_char env items _ hF2]
      have hreg : writesApply (effWrites env items)
          (discover_apps env initState).app_registry
          = (discover_apps env initState).app_registry := by
        apply alist_ext
        · exact writesApply_keys _ _ hF3
        · exact hnd
        · intro k
          rw [writesApply_lookup]
          cases hv : alistLookup (effWrites env items).reverse k with
          | none => rfl
          | some v =>
            rw [hF1 k v hv]
            rfl
      rw [hreg]
  have hs2 : discover_from_uninstall env (discover_apps env initState)
      = discover_apps env initState := by
    unfold discover_from_uninstall
    cases hhive : env.uninstallHive with
    | error u => rfl
    | ok items =>
      show uninstall_loop env items (discover_apps env initState)
        = discover_apps env initState
      apply uninstall_loop_id
      intro dn il a hmem heff
      have h0 : alistMem ((discover_from_uninstall env
          (discover_from_app_paths env initState)).app_registry) a = true := by
        unfold discover_from_uninstall
        rw [hhive]
        exact uninstall_loop_cover env items _ dn il a hmem heff
      exact where_loop_mem_mono env common_apps _ a
        (filesystem_loop_mem_mono env (get_search_paths env) common_apps _ a h0)
  have hs3 : discover_from_filesystem env (get_search_paths env)
      (discover_apps env initState) = discover_apps env initState := by
    show filesystem_loop env (get_search_paths env) common_apps _ = _
    apply filesystem_loop_id
    intro an exes hmem
    rcases filesystem_loop_cover env (get_search_paths env) common_apps
      (discover_from_uninstall env (discover_from_app_paths env initState))
      an exes hmem with h' | h'
    · exact Or.inl (where_loop_mem_mono env common_apps _ an h')
    · exact Or.inr h'
  have hs4 : discover_from_where env (discover_apps env initState)
      = discover_apps env initState := by
    show where_loop env common_apps _ = _
    apply where_loop_id
    intro an exes hmem
    exact where_loop_cover env common_apps
      (discover_from_filesystem env (get_search_paths env)
        (discover_from_uninstall env (discover_from_app_paths env initState)))
      an exes hmem
  show discover_from_where env (discover_from_filesystem env (get_search_paths env)
    (discover_from_uninstall env (discover_from_app_paths env
      (discover_apps env initState)))) = discover_apps env initState
  rw [hs1, hs2, hs3, hs4]

/-! ### C9: non-emptiness of stored paths and window patterns -/

/-- Counterexample for C9: `add_app` performs no validation, so calling it
with an empty path string puts an entry with an empty `executablePath`
into a registry state reachable through the public operations. -/
theorem c9_counterexample_empty_path :
    ("foo", "") ∈ (applyOps (mkAppRegistry emptyEnv)
      [Op.addApp "foo" "" none]).app_registry ∧
    alistLookup (applyOps (mkAppRegistry emptyEnv)
      [Op.addApp "foo" "" none]).app_registry "foo" = some "" :=
  ⟨by decide, by decide⟩

/-- OS-level hygiene of the oracles: the empty string never exists as a
path, the external probe prints only non-empty lines, and App Paths
sub-key names are non-empty. -/
def goodEnv (env : Env) : Prop :=
  env.pathExists "" = false ∧
  (∀ e l p, env.whereCmd e = some l → p ∈ l → p ≠ "") ∧
  (∀ items sub path, env.appPathsHive = .ok items →
    Except.ok (sub, path) ∈ items → sub ≠ "")

/-- The C9 invariant: all stored executable paths and window patterns are
non-empty, and the pattern table is non-empty. -/
def goodState (st : RegState) : Prop :=
  (∀ kv ∈ st.app_registry, kv.2 ≠ "") ∧
  (∀ kv ∈ st.window_patterns, kv.2 ≠ "") ∧
  st.window_patterns ≠ []

/-- Hygiene of one public operation: embedded environments are good, and
`add_app` is called with non-empty name and path. -/
def opGood : Op → Prop
  | .discover env => goodEnv env
  | .lookupApp env _ => goodEnv env
  | .addApp name path _ => name ≠ "" ∧ path ≠ ""

theorem data_ne_empty (s : String) (h : s ≠ "") : s.data ≠ [] := by
  obtain ⟨cs⟩ := s
  intro hc
  apply h
  have hc' : cs = [] := hc
  rw [hc']

theorem string_mk_ne_empty (cs : List Char) (h : cs ≠ []) : (⟨cs⟩ : String) ≠ "" := by
  intro hc
  apply h
  have hd : (String.mk cs).data = ("" : String).data := by rw [hc]
  exact hd

theorem append_data (a b : String) : (a ++ b).data = a.data ++ b.data := by
  obtain ⟨as⟩ := a
  obtain ⟨bs⟩ := b
  rfl

theorem append_ne_empty_left (a b : String) (h : a ≠ "") : a ++ b ≠ "" := by
  intro hc
  apply data_ne_empty a h
  have h2 : (a ++ b).data = [] := by rw [hc]
  rw [append_data] at h2
  exact (List.append_eq_nil.mp h2).1

theorem joinPath_ne_empty (a b : String) (h : a ≠ "") : joinPath a b ≠ "" := by
  unfold joinPath
  rw [if_neg h]
  split
  · exact append_ne_empty_left a b h
  · exact append_ne_empty_left _ _ (append_ne_empty_left a _ h)

theorem pyLower_ne_empty (s : String) (h : s ≠ "") : pyLower s ≠ "" := by
  apply string_mk_ne_empty
  intro hc
  exact data_ne_empty s h (List.map_eq_nil_iff.mp hc)

theorem pyTitle_ne_empty (s : String) (h : s ≠ "") : pyTitle s ≠ "" := by
  unfold pyTitle
  apply string_mk_ne_empty
  cases hd : s.data with
  | nil => exact absurd hd (data_ne_empty s h)
  | cons c rest =>
    simp only [titleGo]
    split
    · simp
    · simp

theorem splitextRoot_ne_empty (s : String) (h : s ≠ "") : splitextRoot s ≠ "" := by
  simp only [splitextRoot]
  split
  · split
    · rename_i hgt hany
      apply string_mk_ne_empty
      rw [Ne, List.take_eq_nil_iff]
      push_neg
      constructor
      · intro h0
        rw [h0] at hany
        simp at hany
      · exact data_ne_empty s h
    · exact h
  · exact h

theorem wordsGo_ne_nil (cs : List Char) : ∀ (acc : List Char), ∀ w ∈ wordsGo acc cs, w ≠ [] := by
  induction cs with
  | nil =>
    intro acc w hw
    simp only [wordsGo] at hw
    by_cases ha : acc.isEmpty = true
    · rw [if_pos ha] at hw
      simp at hw
    · rw [if_neg ha] at hw
      simp only [List.mem_singleton] at hw
      subst hw
      rw [List.isEmpty_iff] at ha
      simpa using ha
  | cons c rest ih =>
    intro acc w hw
    simp only [wordsGo] at hw
    by_cases hc : c.isWhitespace = true
    · rw [if_pos hc] at hw
      by_cases ha : acc.isEmpty = true
      · rw [if_pos ha] at hw
        exact ih [] w hw
      · rw [if_neg ha] at hw
        rcases List.mem_cons.mp hw with h' | h'
        · subst h'
          rw [List.isEmpty_iff] at ha
          simpa using ha
        · exact ih [] w h'
    · rw [if_neg hc] at hw
      exact ih (c :: acc) w hw

theorem firstWord_ne_empty (s w : String) (h : firstWord s = some w) : w ≠ "" := by
  unfold firstWord at h
  cases hw : (wordsGo [] s.data).head? with
  | none =>
    rw [hw] at h
    exact Option.noConfusion h
  | some cs =>
    rw [hw] at h
    have hmk : (⟨cs⟩ : String) = w := Option.some.inj h
    rw [← hmk]
    exact string_mk_ne_empty cs
      (wordsGo_ne_nil s.data [] cs (List.mem_of_mem_head? hw))

theorem alistLookup_mem (m : Alist) (k v : String) (h : alistLookup m k = some v) :
    (k, v) ∈ m := by
  induction m with
  | nil => exact Option.noConfusion h
  | cons kv rest ih =>
    rw [alistLookup_cons] at h
    by_cases hk : kv.1 = k
    · rw [if_pos hk] at h
      have hv : kv.2 = v := Option.some.inj h
      refine List.mem_cons.mpr (Or.inl ?_)
      obtain ⟨a, b⟩ := kv
      simp only at hk hv
      rw [hk, hv]
    · rw [if_neg hk] at h
      exact List.mem_cons_of_mem _ (ih h)

/-- Non-emptiness of the returned search paths (used by the C9 invariant;
the same fact is the amended C5). -/
theorem search_paths_mem_ne_empty (env : Env) (p : String)
    (hp : p ∈ get_search_paths env) : p ≠ "" := by
  simp only [get_search_paths, List.mem_filter] at hp
  obtain ⟨-, h⟩ := hp
  rw [Bool.and_eq_true] at h
  simpa using h.1

theorem app_paths_loop_good (env : Env) (hex : env.pathExists "" = false)
    (items : List (Except Unit (String × String))) :
    ∀ (st : RegState), goodState st →
    (∀ sub path, Except.ok (sub, path) ∈ items → sub ≠ "") →
    goodState (app_paths_loop env items st) := by
  induction items with
  | nil => intro st h _; exact h
  | cons it rest ih =>
    intro st h hsub
    match it with
    | .error u => exact h
    | .ok (sub, path) =>
      simp only [app_paths_loop]
      by_cases hp : env.pathExists path = true
      · rw [if_pos hp]
        apply ih _ ?_ (fun s q hm => hsub s q (List.mem_cons_of_mem _ hm))
        obtain ⟨hr, hpat, hne⟩ := h
        have hpath : path ≠ "" := by
          intro he
          rw [he, hex] at hp
          exact Bool.noConfusion hp
        have hsub1 : sub ≠ "" := hsub sub path (List.mem_cons_self _ _)
        refine ⟨alistSet_forall _ _ _ hr hpath, ?_, ?_⟩
        · show ∀ kv ∈ (if alistMem st.window_patterns (pyLower (splitextRoot sub)) = true
              then st.window_patterns
              else alistSet st.window_patterns (pyLower (splitextRoot sub))
                (pyTitle (pyLower (splitextRoot sub)))), kv.2 ≠ ""
          split
          · exact hpat
          · exact alistSet_forall _ _ _ hpat
              (pyTitle_ne_empty _ (pyLower_ne_empty _ (splitextRoot_ne_empty _ hsub1)))
        · show (if alistMem st.window_patterns (pyLower (splitextRoot sub)) = true
              then st.window_patterns
              else alistSet st.window_patterns (pyLower (splitextRoot sub))
                (pyTitle (pyLower (splitextRoot sub)))) ≠ []
          split
          · exact hne
          · exact alistSet_ne_nil _ _ _
      · rw [if_neg hp]
        exact ih st h (fun s q hm => hsub s q (List.mem_cons_of_mem _ hm))

theorem uninstall_step_good (env : Env) (dn il : String) (st : RegState)
    (h : goodState st) : goodState (uninstall_step env dn il st) := by
  unfold uninstall_step
  split
  · exact h
  rename_i a hfw
  split
  · rename_i hc
    split
    · exact h
    · rename_i files hfl
      split
      · exact h
      · rename_i f hff
        split
        · exact h
        · obtain ⟨hr, hpat, hne⟩ := h
          have hil : il ≠ "" := by
            rw [Bool.and_eq_true] at hc
            simpa using hc.1
          have hdn : dn ≠ "" := by
            intro he
            rw [he] at hfw
            exact Option.noConfusion hfw
          refine ⟨alistSet_forall _ _ _ hr (joinPath_ne_empty il f hil), ?_, ?_⟩
          · show ∀ kv ∈ (if alistMem st.window_patterns a = true
                then st.window_patterns else alistSet st.window_patterns a dn), kv.2 ≠ ""
            split
            · exact hpat
            · exact alistSet_forall _ _ _ hpat hdn
          · show (if alistMem st.window_patterns a = true
                then st.window_patterns else alistSet st.window_patterns a dn) ≠ []
            split
            · exact hne
            · exact alistSet_ne_nil _ _ _
  · exact h

theorem uninstall_loop_good (env : Env) (items : List UItem) :
    ∀ (st : RegState), goodState st → goodState (uninstall_loop env items st) := by
  induction items with
  | nil => intro st h; exact h
  | cons it rest ih =>
    intro st h
    match it with
    | .fatal => exact h
    | .skip => exact ih st h
    | .entry dn il => exact ih _ (uninstall_step_good env dn il st h)

theorem fs_subdir_loop_good (env : Env) (sp an e : String) (hsp : sp ≠ "")
    (subs : List String) :
    ∀ (st : RegState), goodState st → goodState (fs_subdir_loop env sp an e subs st) := by
  induction subs with
  | nil => intro st h; exact h
  | cons d rest ih =>
    intro st h
    simp only [fs_subdir_loop]
    by_cases h1 : env.isDir (joinPath sp d) = true
    · rw [if_pos h1]
      by_cases h2 : env.pathExists (joinPath (joinPath sp d) e) = true
      · rw [if_pos h2]
        exact ⟨alistSet_forall _ _ _ h.1
          (joinPath_ne_empty _ _ (joinPath_ne_empty sp d hsp)), h.2.1, h.2.2⟩
      · rw [if_neg h2]
        exact ih st h
    · rw [if_neg h1]
      exact ih st h

theorem fs_exe_loop_good (env : Env) (sp an : String) (hsp : sp ≠ "")
    (exes : List String) :
    ∀ (st : RegState), goodState st → goodState (fs_exe_loop env sp an exes st) := by
  induction exes with
  | nil => intro st h; exact h
  | cons e rest ih =>
    intro st h
    simp only [fs_exe_loop]
    by_cases h1 : env.pathExists (joinPath sp e) = true
    · rw [if_pos h1]
      exact ⟨alistSet_forall _ _ _ h.1 (joinPath_ne_empty sp e hsp), h.2.1, h.2.2⟩
    · rw [if_neg h1]
      cases hl : env.listDir sp with
      | error u => exact ih st h
      | ok subs =>
        show goodState (fs_exe_loop env sp an rest (fs_subdir_loop env sp an e subs st))
        exact ih _ (fs_subdir_loop_good env sp an e hsp subs st h)

theorem fs_path_loop_good (env : Env) (an : String) (exes sps : List String)
    (hsps : ∀ sp ∈ sps, sp ≠ "") :
    ∀ (st : RegState), goodState st → goodState (fs_path_loop env an exes sps st) := by
  induction sps with
  | nil => intro st h; exact h
  | cons sp rest ih =>
    intro st h
    simp only [fs_path_loop]
    have hsp : sp ≠ "" := hsps sp (List.mem_cons_self _ _)
    by_cases hm : alistMem ((fs_exe_loop env sp an exes st).app_registry) an = true
    · rw [if_pos hm]
      exact fs_exe_loop_good env sp an hsp exes st h
    · rw [if_neg hm]
      exact ih (fun q hq => hsps q (List.mem_cons_of_mem _ hq)) _
        (fs_exe_loop_good env sp an hsp exes st h)

theorem filesystem_loop_good (env : Env) (sps : List String)
    (hsps : ∀ sp ∈ sps, sp ≠ "") (apps : List (String × List String)) :
    ∀ (st : RegState), goodState st → goodState (filesystem_loop env sps apps st) := by
  induction apps with
  | nil => intro st h; exact h
  | cons pr rest ih =>
    obtain ⟨an, exes⟩ := pr
    intro st h
    simp only [filesystem_loop]
    by_cases hm : alistMem st.app_registry an = true
    · rw [if_pos hm]
      exact ih st h
    · rw [if_neg hm]
      exact ih _ (fs_path_loop_good env an exes sps hsps st h)

theorem where_exe_loop_good (env : Env) (an : String)
    (hw : ∀ e l p, env.whereCmd e = some l → p ∈ l → p ≠ "") (exes : List String) :
    ∀ (st : RegState), goodState st → goodState (where_exe_loop env an exes st) := by
  induction exes with
  | nil => intro st h; exact h
  | cons e rest ih =>
    intro st h
    simp only [where_exe_loop]
    cases hcmd : env.whereCmd e with
    | none => exact ih st h
    | some paths =>
      cases paths with
      | nil => exact ih st h
      | cons p ps =>
        exact ⟨alistSet_forall _ _ _ h.1
          (hw e (p :: ps) p hcmd (List.mem_cons_self _ _)), h.2.1, h.2.2⟩

theorem where_loop_good (env : Env)
    (hw : ∀ e l p, env.whereCmd e = some l → p ∈ l → p ≠ "")
    (apps : List (String × List String)) :
    ∀ (st : RegState), goodState st → goodState (where_loop env apps st) := by
  induction apps with
  | nil => intro st h; exact h
  | cons pr rest ih =>
    obtain ⟨an, exes⟩ := pr
    intro st h
    simp only [where_loop]
    by_cases hm : alistMem st.app_registry an = true
    · rw [if_pos hm]
      exact ih st h
    · rw [if_neg hm]
      exact ih _ (where_exe_loop_good env an hw exes st h)

theorem discover_apps_good (env : Env) (st : RegState) (hg : goodEnv env)
    (h : goodState st) : goodState (discover_apps env st) := by
  have h1 : goodState (discover_from_app_paths env st) := by
    unfold discover_from_app_paths
    cases hhive : env.appPathsHive with
    | error u => exact h
    | ok items =>
      exact app_paths_loop_good env hg.1 items st h
        (fun sub path hm => hg.2.2 items sub path hhive hm)
  have h2 : goodState (discover_from_uninstall env (discover_from_app_paths env st)) := by
    unfold discover_from_uninstall
    cases env.uninstallHive with
    | error u => exact h1
    | ok items => exact uninstall_loop_good env items _ h1
  exact where_loop_good env hg.2.1 common_apps _
    (filesystem_loop_good env (get_search_paths env)
      (fun sp hsp => search_paths_mem_ne_empty env sp hsp) common_apps _ h2)

theorem get_app_path_good (env : Env) (st : RegState) (name : String)
    (hg : goodEnv env) (h : goodState st) :
    goodState ((get_app_path env st name).2.1) := by
  simp only [get_app_path]
  split
  · exact h
  · split
    · exact h
    · simp only [find_app_on_demand]
      split
      · exact h
      · rename_i paths hcmd
        cases paths with
        | nil => exact h
        | cons p ps =>
          exact ⟨alistSet_forall _ _ _ h.1
            (hg.2.1 _ _ p hcmd (List.mem_cons_self _ _)), h.2.1, h.2.2⟩

theorem add_app_good (st : RegState) (name path : String) (wp : Option String)
    (hn : name ≠ "") (hp : path ≠ "") (h : goodState st) :
    goodState (add_app st name path wp) := by
  have hlname : pyLower name ≠ "" := pyLower_ne_empty name hn
  simp only [add_app]
  cases wp with
  | none =>
    exact ⟨alistSet_forall _ _ _ h.1 hp,
      alistSet_forall _ _ _ h.2.1 (pyTitle_ne_empty _ hlname), alistSet_ne_nil _ _ _⟩
  | some w =>
    show goodState ⟨alistSet st.app_registry (pyLower name) path,
      if (w == "") = true
      then alistSet st.window_patterns (pyLower name) (pyTitle (pyLower name))
      else alistSet st.window_patterns (pyLower name) w⟩
    by_cases hw : (w == "") = true
    · rw [if_pos hw]
      exact ⟨alistSet_forall _ _ _ h.1 hp,
        alistSet_forall _ _ _ h.2.1 (pyTitle_ne_empty _ hlname), alistSet_ne_nil _ _ _⟩
    · rw [if_neg hw]
      exact ⟨alistSet_forall _ _ _ h.1 hp,
        alistSet_forall _ _ _ h.2.1 (by simpa using hw), alistSet_ne_nil _ _ _⟩

theorem applyOps_good (ops : List Op) :
    ∀ (st : RegState), goodState st → (∀ op ∈ ops, opGood op) →
    goodState (applyOps st ops) := by
  induction ops with
  | nil => intro st h _; exact h
  | cons op rest ih =>
    intro st h hops
    show goodState (applyOps (applyOp st op) rest)
    apply ih _ ?_ (fun o ho => hops o (List.mem_cons_of_mem _ ho))
    have hop := hops op (List.mem_cons_self _ _)
    cases op with
    | discover env => exact discover_apps_good env st hop h
    | lookupApp env name => exact get_app_path_good env st name hop h
    | addApp name path wp => exact add_app_good st name path wp hop.1 hop.2 h

theorem get_window_pattern_ne_empty (st : RegState) (name : String)
    (h : goodState st) : get_window_pattern st name ≠ "" := by
  simp only [get_window_pattern]
  split
  · rename_i p hp
    exact h.2.1 _ (alistLookup_mem _ _ _ hp)
  · split
    · rename_i kv hkv
      exact h.2.1 kv (List.mem_of_find?_eq_some hkv)
    · rename_i hfind
      by_cases hn : pyLower name = ""
      · exfalso
        rw [hn] at hfind
        cases hpat : st.window_patterns with
        | nil => exact h.2.2 hpat
        | cons kv rest =>
          rw [hpat, List.find?_cons_of_pos] at hfind
          · exact Option.noConfusion hfind
          · show (strContains kv.1 "" || strContains "" kv.1) = true
            rw [strContains_empty_needle]
            rfl
      · exact pyTitle_ne_empty _ hn

/-- C9 (amended): provided the environment's probes never report the empty
string as an existing path, never print empty output lines, enumerate only
non-empty sub-key names, and `add_app` is only called with non-empty name
and path arguments, every name present in a reachable registry has a
non-empty executable path and a non-empty window pattern (the pattern
falling back to the title-cased name when no explicit mapping exists). -/
theorem c9_nonempty_invariant (env : Env) (ops : List Op) (k v : String)
    (hg : goodEnv env) (hops : ∀ op ∈ ops, opGood op)
    (hmem : (k, v) ∈ (applyOps (mkAppRegistry env) ops).app_registry) :
    v ≠ "" ∧ get_window_pattern (applyOps (mkAppRegistry env) ops) k ≠ "" := by
  have hgood : goodState (applyOps (mkAppRegistry env) ops) := by
    apply applyOps_good ops _ _ hops
    apply discover_apps_good env initState hg
    exact ⟨by simp [initState], by decide, by decide⟩
  exact ⟨hgood.1 (k, v) hmem, get_window_pattern_ne_empty _ k hgood⟩

/-- Witness for the amended C9. -/
theorem c9_witness :
    goodEnv emptyEnv ∧
    (∀ op ∈ [Op.addApp "foo" "C:\\f.exe" none], opGood op) ∧
    (("foo", "C:\\f.exe") ∈ (applyOps (mkAppRegistry emptyEnv)
      [Op.addApp "foo" "C:\\f.exe" none]).app_registry) ∧
    ("C:\\f.exe" ≠ "" ∧ get_window_pattern
      (applyOps (mkAppRegistry emptyEnv) [Op.addApp "foo" "C:\\f.exe" none]) "foo" ≠ "") := by
  have hge : goodEnv emptyEnv :=
    ⟨rfl, fun e l p hl _ => Option.noConfusion hl,
      fun items sub path hh _ => Except.noConfusion hh⟩
  have hop : ∀ op ∈ [Op.addApp "foo" "C:\\f.exe" none], opGood op := by
    intro op ho
    rcases List.mem_cons.mp ho with h' | h'
    · subst h'
      exact ⟨by decide, by decide⟩
    · exact absurd h' (List.not_mem_nil _)
  refine ⟨hge, hop, by decide, ?_⟩
  exact c9_nonempty_invariant emptyEnv [Op.addApp "foo" "C:\\f.exe" none]
    "foo" "C:\\f.exe" hge hop (by decide)
